import Mathlib

/-
Verification of the blossom_espelhator fan-out proxy core against its
specification.  The Go source is shallowly embedded: each Go function that a
claim depends on is translated into an executable Lean definition, state is
passed explicitly, wall-clock time is an explicit `now : Nat` argument, and
Go map iteration order is determinized as first-occurrence list order.
-/

namespace Blossom

/-! ## Hash-to-peers cache (internal/cache/cache.go) -/

/-- One cache entry: the server list plus creation and last-access stamps
(`cacheEntry` in the source). -/
structure CacheEntry where
  servers : List String
  createdAt : Nat
  lastAccess : Nat
  deriving Repr, DecidableEq

/-- Cache state: the items map (modelled as an association list with
first-occurrence order standing in for Go map identity), the TTL and the
maximum size (`Cache` in the source). -/
structure Cache where
  items : List (String × CacheEntry)
  ttl : Nat
  maxSize : Nat
  deriving Repr, DecidableEq

/-- `extractHash`: take the first 64 characters of the path; shorter paths
are returned as-is. -/
def extractHash (path : String) : String :=
  if 64 ≤ path.length then String.mk (path.data.take 64) else path

/-- `c.ttl > 0 && now.Sub(entry.createdAt) > c.ttl` from the source. -/
def entryExpired (ttl now createdAt : Nat) : Bool :=
  decide (0 < ttl) && decide (ttl < now - createdAt)

/-- Association-list lookup standing in for Go map indexing. -/
def alLookup (k : String) : List (String × CacheEntry) → Option CacheEntry
  | [] => none
  | (k2, v) :: rest => if k2 = k then some v else alLookup k rest

/-- Association-list insert/replace standing in for Go map assignment. -/
def alInsert (k : String) (v : CacheEntry) :
    List (String × CacheEntry) → List (String × CacheEntry)
  | [] => [(k, v)]
  | (k2, v2) :: rest => if k2 = k then (k, v) :: rest else (k2, v2) :: alInsert k v rest

/-- Association-list delete standing in for Go map `delete`. -/
def alErase (k : String) : List (String × CacheEntry) → List (String × CacheEntry)
  | [] => []
  | (k2, v) :: rest => if k2 = k then rest else (k2, v) :: alErase k rest

/-- Inner loop of `evictOldest`: keep the first entry with the strictly
smallest `lastAccess` (Go keeps the current candidate unless a strictly
earlier one appears). -/
def findOldestAux (cur : String × CacheEntry) :
    List (String × CacheEntry) → String × CacheEntry
  | [] => cur
  | p :: rest =>
    if p.2.lastAccess < cur.2.lastAccess then findOldestAux p rest
    else findOldestAux cur rest

/-- The entry with the oldest `lastAccess` time, if any. -/
def findOldest : List (String × CacheEntry) → Option (String × CacheEntry)
  | [] => none
  | p :: rest => some (findOldestAux p rest)

/-- `evictOldest`: return early when below capacity, sweep every expired
entry, and if still full delete the entry with the oldest `lastAccess` —
guarded, as in the source, by `oldestHash != ""`. -/
def evictOldest (now : Nat) (c : Cache) : Cache :=
  if c.items.length < c.maxSize then c
  else
    let remaining := c.items.filter (fun p => !(entryExpired c.ttl now p.2.createdAt))
    if c.maxSize ≤ remaining.length then
      match findOldest remaining with
      | some p =>
        if p.1 = "" then { c with items := remaining }
        else { c with items := alErase p.1 remaining }
      | none => { c with items := remaining }
    else { c with items := remaining }

/-- `Cache.Add`: evict when admitting a new key at capacity, then create or
replace the entry. -/
def cacheAdd (path : String) (servers : List String) (now : Nat) (c : Cache) : Cache :=
  let h := extractHash path
  let items1 :=
    if (alLookup h c.items).isNone && decide (c.maxSize ≤ c.items.length) then
      (evictOldest now c).items
    else c.items
  { c with items := alInsert h ⟨servers, now, now⟩ items1 }

/-- `Cache.Get`: absent on miss, delete-and-absent on expiry, otherwise
return the servers and bump `lastAccess`. -/
def cacheGet (path : String) (now : Nat) (c : Cache) : Option (List String) × Cache :=
  let h := extractHash path
  match alLookup h c.items with
  | none => (none, c)
  | some e =>
    if entryExpired c.ttl now e.createdAt then
      (none, { c with items := alErase h c.items })
    else
      (some e.servers, { c with items := alInsert h { e with lastAccess := now } c.items })

/-- `Cache.Remove`: unconditional delete. -/
def cacheRemove (path : String) (c : Cache) : Cache :=
  { c with items := alErase (extractHash path) c.items }

/-- `Cache.AddServer`: create the entry (with eviction at capacity) on miss,
replace it on expiry, and otherwise append the server if absent. -/
def cacheAddServer (path server : String) (now : Nat) (c : Cache) : Cache :=
  let h := extractHash path
  match alLookup h c.items with
  | none =>
    let items1 :=
      if c.maxSize ≤ c.items.length then (evictOldest now c).items else c.items
    { c with items := alInsert h ⟨[server], now, now⟩ items1 }
  | some e =>
    if entryExpired c.ttl now e.createdAt then
      { c with items := alInsert h ⟨[server], now, now⟩ c.items }
    else if server ∈ e.servers then
      { c with items := alInsert h { e with lastAccess := now } c.items }
    else
      { c with items := alInsert h { e with servers := e.servers ++ [server], lastAccess := now } c.items }

/-- `Cache.RemoveServer`: drop the server from the entry; removing the last
server (or hitting an expired entry) removes the entry. -/
def cacheRemoveServer (path server : String) (now : Nat) (c : Cache) : Cache :=
  let h := extractHash path
  match alLookup h c.items with
  | none => c
  | some e =>
    if entryExpired c.ttl now e.createdAt then
      { c with items := alErase h c.items }
    else
      let newServers := e.servers.filter (fun s => s ≠ server)
      if newServers.isEmpty then { c with items := alErase h c.items }
      else { c with items := alInsert h { e with servers := newServers, lastAccess := now } c.items }

/-- A fresh cache, as built by `cache.New`. -/
def emptyCache (ttl maxSize : Nat) : Cache := ⟨[], ttl, maxSize⟩

/-- The interleavings quantified over in the size-bound claim: `Add` and
`AddServer` calls with arbitrary arguments and timestamps. -/
inductive CacheOp where
  | add (path : String) (servers : List String) (now : Nat)
  | addServer (path server : String) (now : Nat)
  deriving Repr

/-- Run one cache operation. -/
def runCacheOp (c : Cache) : CacheOp → Cache
  | .add path servers now => cacheAdd path servers now c
  | .addServer path server now => cacheAddServer path server now c

/-- Run a sequence of cache operations. -/
def runCacheOps (c : Cache) (ops : List CacheOp) : Cache :=
  ops.foldl runCacheOp c

/-- The path of a cache operation. -/
def CacheOp.path : CacheOp → String
  | .add p _ _ => p
  | .addServer p _ _ => p

/-! ## Per-peer statistics (internal/stats/stats.go) -/

/-- `ServerStats`: per-peer counters, consecutive-failure count, health flag
and timestamps (the URL key is kept by the surrounding map and omitted
here). -/
structure ServerStats where
  uploadsSuccess : Nat
  uploadsFailure : Nat
  downloads : Nat
  mirrorsSuccess : Nat
  mirrorsFailure : Nat
  deletesSuccess : Nat
  deletesFailure : Nat
  listsSuccess : Nat
  listsFailure : Nat
  consecutiveFailures : Nat
  isHealthy : Bool
  lastFailureTime : Option Nat
  lastSuccessTime : Option Nat
  deriving Repr, DecidableEq

/-- The entry `GetOrCreate`/`InitializeServers` create: zero counters,
healthy. -/
def initServerStats : ServerStats :=
  ⟨0, 0, 0, 0, 0, 0, 0, 0, 0, 0, true, none, none⟩

/-- `Stats.RecordSuccess`: stamp last-success, zero consecutive failures,
set healthy, then bump the per-operation success counter. -/
def recordSuccess (opType : String) (now : Nat) (s : ServerStats) : ServerStats :=
  let s := { s with lastSuccessTime := some now, consecutiveFailures := 0, isHealthy := true }
  if opType = "upload" then { s with uploadsSuccess := s.uploadsSuccess + 1 }
  else if opType = "download" then { s with downloads := s.downloads + 1 }
  else if opType = "mirror" then { s with mirrorsSuccess := s.mirrorsSuccess + 1 }
  else if opType = "delete" then { s with deletesSuccess := s.deletesSuccess + 1 }
  else if opType = "list" then { s with listsSuccess := s.listsSuccess + 1 }
  else s

/-- `Stats.RecordFailure`: stamp last-failure, bump consecutive failures,
mark unhealthy once they reach `maxFailures`, then bump the per-operation
failure counter. -/
def recordFailure (maxFailures : Nat) (opType : String) (now : Nat) (s : ServerStats) : ServerStats :=
  let s := { s with lastFailureTime := some now, consecutiveFailures := s.consecutiveFailures + 1 }
  let s := if maxFailures ≤ s.consecutiveFailures then { s with isHealthy := false } else s
  if opType = "upload" then { s with uploadsFailure := s.uploadsFailure + 1 }
  else if opType = "mirror" then { s with mirrorsFailure := s.mirrorsFailure + 1 }
  else if opType = "delete" then { s with deletesFailure := s.deletesFailure + 1 }
  else if opType = "list" then { s with listsFailure := s.listsFailure + 1 }
  else s

/-- A recorded outcome for one peer entry. -/
inductive StatsEvent where
  | success (opType : String) (now : Nat)
  | failure (opType : String) (now : Nat)
  deriving Repr

/-- Apply one recorded outcome. -/
def runStatsEvent (maxFailures : Nat) (s : ServerStats) : StatsEvent → ServerStats
  | .success op now => recordSuccess op now s
  | .failure op now => recordFailure maxFailures op now s

/-- Apply a sequence of recorded outcomes. -/
def runStatsEvents (maxFailures : Nat) (s : ServerStats) (evs : List StatsEvent) : ServerStats :=
  evs.foldl (runStatsEvent maxFailures) s

/-! ## Configuration loading (internal/config/config.go) -/

/-- One `upstream_servers` entry. -/
structure UpstreamServer where
  url : String
  priority : Int
  alternativeAddress : String
  supportsMirror : Option Bool
  supportsUploadHead : Option Bool
  deriving Repr, DecidableEq

/-- The `server` section; durations are `time.Duration` nanosecond counts. -/
structure ServerConfig where
  listenAddr : String
  minUploadServers : Int
  redirectStrategy : String
  downloadRedirectStrategy : String
  baseURL : String
  timeout : Int
  minUploadTimeout : Int
  maxUploadTimeout : Int
  maxRetries : Int
  maxFailures : Int
  maxGoroutines : Int
  maxMemoryBytes : Int
  cacheTTL : Int
  cacheMaxSize : Int
  allowedPubkeys : List String
  deriving Repr, DecidableEq

/-- The whole configuration file. -/
structure Config where
  upstreamServers : List UpstreamServer
  server : ServerConfig
  deriving Repr, DecidableEq

/-- One second as a `time.Duration`. -/
def durSecond : Int := 1000000000

/-- One minute as a `time.Duration`. -/
def durMinute : Int := 60 * durSecond

/-- The defaulting block of `config.Load` (Go zero values mark unset
fields). -/
def loadDefaults (c : Config) : Config :=
  let s := c.server
  let s := if s.listenAddr = "" then { s with listenAddr := ":8080" } else s
  let s := if s.minUploadServers = 0 then { s with minUploadServers := 2 } else s
  let s := if s.redirectStrategy = "" then { s with redirectStrategy := "round_robin" } else s
  let s := if s.timeout = 0 then { s with timeout := 30 * durSecond } else s
  let s := if s.minUploadTimeout = 0 then { s with minUploadTimeout := 5 * durMinute } else s
  let s := if s.maxUploadTimeout = 0 then { s with maxUploadTimeout := 30 * durMinute } else s
  let s := if s.maxRetries = 0 then { s with maxRetries := 3 } else s
  let s := if s.maxFailures = 0 then { s with maxFailures := 5 } else s
  let s := if s.maxGoroutines = 0 then { s with maxGoroutines := 1000 } else s
  let s := if s.maxMemoryBytes = 0 then { s with maxMemoryBytes := 512 * 1024 * 1024 } else s
  let s := if s.cacheTTL = 0 then { s with cacheTTL := 5 * durMinute } else s
  let s := if s.cacheMaxSize = 0 then { s with cacheMaxSize := 1000 } else s
  let upstream := c.upstreamServers.map (fun srv =>
    let srv := if srv.supportsMirror.isNone then { srv with supportsMirror := some false } else srv
    if srv.supportsUploadHead.isNone then { srv with supportsUploadHead := some false } else srv)
  { upstreamServers := upstream, server := s }

/-- `config.Load` after a successful YAML parse: apply defaults, then reject
configurations with fewer upstream servers than `min_upload_servers`. -/
def configLoad (c : Config) : Except String Config :=
  let c := loadDefaults c
  if (c.upstreamServers.length : Int) < c.server.minUploadServers then
    Except.error "not enough upstream servers"
  else
    Except.ok c

/-! ## Fan-out upload aggregation (UploadParallel / UploadParallelStreaming) -/

/-- `UploadResult`: what one per-peer goroutine sends on the result
channel; the goroutine sets `success := (err == nil)` and `hasError`
mirrors `Error != nil`. -/
structure UploadResult where
  serverURL : String
  success : Bool
  hasError : Bool
  statusCode : Nat
  responseBody : String
  deriving Repr, DecidableEq

/-- `UploadResultWithResponse`. -/
structure UploadResultWithResponse where
  serverURL : String
  responseBody : String
  deriving Repr, DecidableEq

/-- The error returned on a failed quorum: a typed `*UploadError` carrying
the minimum upstream status, or the plain `fmt.Errorf` error (no status). -/
inductive UploadAggErr where
  | withStatus (statusCode : Nat)
  | internal
  deriving Repr, DecidableEq

/-- The HTTP status the handler answers with for an upload error
(`HandleUpload`: pass a `*UploadError` code through, default 500). -/
def uploadErrStatus : UploadAggErr → Nat
  | .withStatus c => c
  | .internal => 500

/-- The collection loop shared by the upload fan-outs: successes keep their
bodies; failures contribute an error detail and, when positive, their
status code.  The source loop appends each contribution in result order;
the head-first recursion below conses the head's contribution onto the
rest, producing the same lists. -/
def collectUpload : List UploadResult →
    List UploadResultWithResponse × List String × List Nat
  | [] => ([], [], [])
  | r :: rest =>
    let acc := collectUpload rest
    if r.success then (⟨r.serverURL, r.responseBody⟩ :: acc.1, acc.2.1, acc.2.2)
    else if r.hasError then
      (acc.1, r.serverURL :: acc.2.1,
        if 0 < r.statusCode then r.statusCode :: acc.2.2 else acc.2.2)
    else acc

/-- The quorum check of `UploadParallel` (manager.go): below
`minUploadServers` successes, return a `*UploadError` with the lowest
collected status code, or a plain error when no code was collected. -/
def uploadParallelAggregate (minUploadServers : Nat) (results : List UploadResult) :
    List UploadResultWithResponse × Option UploadAggErr :=
  let (succ, _details, codes) := collectUpload results
  if succ.length < minUploadServers then
    match codes with
    | [] => (succ, some UploadAggErr.internal)
    | c :: rest => (succ, some (UploadAggErr.withStatus (rest.foldl min c)))
  else (succ, none)

/-- `UploadParallelStreaming` ends with the byte-for-byte same collection
and quorum code as `UploadParallel`. -/
def uploadParallelStreamingAggregate (minUploadServers : Nat) (results : List UploadResult) :
    List UploadResultWithResponse × Option UploadAggErr :=
  uploadParallelAggregate minUploadServers results

/-! ## Upload preflight (UploadPreflightParallel, handleUploadPreflight) -/

/-- `UploadPreflightResult`: transport errors give `accepted := false`,
`statusCode := 0`, empty reason; responses give `accepted := (status ==
200)` plus the `X-Reason` header. -/
structure PreflightResult where
  serverURL : String
  accepted : Bool
  statusCode : Nat
  xReason : String
  hasError : Bool
  deriving Repr, DecidableEq

/-- The manager's loop locating the lowest status code among rejecting
peers that produced one (`lowestStatusCode` starts at 0 = unset). -/
def lowestRejectionCode (results : List PreflightResult) : Nat :=
  results.foldl
    (fun low r =>
      if !r.accepted && 0 < r.statusCode then
        if low = 0 || r.statusCode < low then r.statusCode else low
      else low)
    0

/-- The quorum check of `UploadPreflightParallel`: with fewer than
`minUploadServers` acceptances, fail with the lowest rejection status,
defaulting to 400 when none was observed. -/
def preflightAggregate (minUploadServers : Nat) (results : List PreflightResult) :
    Option UploadAggErr :=
  let acceptedCount := (results.filter (·.accepted)).length
  if acceptedCount < minUploadServers then
    let lowest := lowestRejectionCode results
    some (UploadAggErr.withStatus (if lowest = 0 then 400 else lowest))
  else none

/-- `handleUploadPreflight`: the reasons collected from rejected peers in
arrival order (the source loop appends in result order; the head-first
recursion produces the same list). -/
def preflightReasons : List PreflightResult → List String
  | [] => []
  | r :: rest =>
    if !r.accepted && r.xReason ≠ "" then r.xReason :: preflightReasons rest
    else preflightReasons rest

/-- The string `handleUploadPreflight` puts in the `X-Reason` response
header: the first collected reason, else the error message. -/
def preflightHeaderReason (errMsg : String) (results : List PreflightResult) : String :=
  match preflightReasons results with
  | [] => errMsg
  | r :: _ => r

/-! ## Auth verifier (internal/auth/auth.go) -/

/-- A parsed Nostr authorization event.  The go-nostr signature check is an
external cryptographic library call; its outcome is carried as the two
fields `sigCheckError` (non-nil error return) and `sigValid` (boolean
result). -/
structure NostrEvent where
  kind : Int
  pubkey : String
  tags : List (List String)
  createdAt : Int
  content : String
  sigCheckError : Option String
  sigValid : Bool
  deriving Repr, DecidableEq

/-- `AuthError`: reason plus HTTP status code. -/
structure AuthError where
  reason : String
  code : Nat
  deriving Repr, DecidableEq

/-- Hex-digit test used for `hex.DecodeString` validity. -/
def isHexDigit (ch : Char) : Bool :=
  (decide (Char.ofNat 48 ≤ ch) && decide (ch ≤ Char.ofNat 57)) ||
  (decide (Char.ofNat 97 ≤ ch) && decide (ch ≤ Char.ofNat 102)) ||
  (decide (Char.ofNat 65 ≤ ch) && decide (ch ≤ Char.ofNat 70))

/-- `hex.DecodeString` succeeds: even length, all hex digits. -/
def validHex (s : String) : Bool :=
  decide (s.length % 2 = 0) && s.data.all isHexDigit

/-- `auth.ValidateEvent`, translated check for check.  The source checks,
in order: nil event, kind 24242, pubkey length 64, pubkey hex, signature
(error then validity), allow-list.  `requiredVerb` is received but — as in
the source — never consulted, and the event's tags (hence the `t` and
`expiration` tags) are never read. -/
def validateEvent (event : Option NostrEvent) (requiredVerb : String)
    (allowedPubkeys : List String) : Option AuthError :=
  match event with
  | none => some ⟨"Authorization event not found", 401⟩
  | some ev =>
    if ev.kind ≠ 24242 then some ⟨"Invalid event kind", 401⟩
    else if ev.pubkey.length ≠ 64 then
      some ⟨"Invalid pubkey format: must be 64 hex characters", 401⟩
    else if !validHex ev.pubkey then
      some ⟨"Invalid pubkey format: not valid hex", 401⟩
    else if ev.sigCheckError.isSome then some ⟨"Failed to verify signature", 401⟩
    else if !ev.sigValid then some ⟨"Invalid signature", 401⟩
    else if allowedPubkeys.length > 0 && !(allowedPubkeys.contains ev.pubkey.toLower) then
      some ⟨"Pubkey not in allowed list", 403⟩
    else none

/-! ## Error-tolerant pipe writer (manager.go, streaming upload) -/

/-- What the underlying `io.PipeWriter.Write` does on one call: accept the
whole chunk, or fail after consuming `nWritten` bytes. -/
inductive PipeWriteResp where
  | ok
  | fail (nWritten : Nat) (e : String)
  deriving Repr

/-- `errorTolerantWriter` state: the first recorded error, the closed flag,
and (for the proofs) the bytes actually delivered to the pipe. -/
structure ETWState where
  err : Option String
  closed : Bool
  pipeBytes : List Nat
  deriving Repr, DecidableEq

/-- `errorTolerantWriter.Write`: once errored or closed, swallow the write
and report `(len(p), nil)`; on a fresh pipe failure record the error, close
the pipe, and still report `(len(p), nil)` so `io.MultiWriter` keeps
going. -/
def etwWrite (resp : PipeWriteResp) (p : List Nat) (s : ETWState) :
    (Nat × Option String) × ETWState :=
  if s.err.isSome || s.closed then ((p.length, none), s)
  else
    match resp with
    | .ok => ((p.length, none), { s with pipeBytes := s.pipeBytes ++ p })
    | .fail n e =>
      ((p.length, none),
        { s with err := some e, closed := true, pipeBytes := s.pipeBytes ++ p.take n })

/-- `errorTolerantWriter.GetError`. -/
def etwGetError (s : ETWState) : Option String := s.err

/-- `io.MultiWriter(...).Write`: write the chunk to each wrapped writer in
order, aborting on an error or a short write. -/
def multiWriteAux (p : List Nat) :
    List (ETWState × PipeWriteResp) → (Nat × Option String) × List ETWState
  | [] => ((p.length, none), [])
  | (s, r) :: rest =>
    let out := etwWrite r p s
    match out.1.2 with
    | some e => ((out.1.1, some e), out.2 :: rest.map (·.1))
    | none =>
      if out.1.1 ≠ p.length then
        ((out.1.1, some "short write"), out.2 :: rest.map (·.1))
      else
        let tail := multiWriteAux p rest
        ((tail.1.1, tail.1.2), out.2 :: tail.2)

/-- One composite write: pair each writer with its pipe's behaviour. -/
def multiWrite (resps : List PipeWriteResp) (p : List Nat) (states : List ETWState) :
    (Nat × Option String) × List ETWState :=
  multiWriteAux p (states.zip resps)

/-- `io.Copy(multiWriter, body)`: feed each chunk of the body to the
composite writer, stopping on error or short write; returns the byte count
written, the error, and the final writer states.  `o i j` is the pipe
behaviour of writer `j` on chunk `i`. -/
def copyToPipes (o : Nat → Nat → PipeWriteResp) :
    Nat → List (List Nat) → List ETWState → Nat × Option String × List ETWState
  | _, [], states => (0, none, states)
  | i, p :: rest, states =>
    let resps := (List.range states.length).map (o i)
    let out := multiWrite resps p states
    match out.1.2 with
    | some e => (out.1.1, some e, out.2)
    | none =>
      if out.1.1 < p.length then (out.1.1, some "short write", out.2)
      else
        let tail := copyToPipes o (i + 1) rest out.2
        (out.1.1 + tail.1, tail.2.1, tail.2.2)

/-! ## Catalog list merge (listParallelInternal) -/

/-- One item of a peer's catalog, as the merge reads it: the `sha256`,
`url` and `type` fields when they are strings, the `nip94` array when it is
an array of string-arrays, and the remaining fields kept opaque. -/
structure ListItem where
  sha256 : Option String
  url : Option String
  mimeType : Option String
  nip94 : Option (List (List String))
  rest : List (String × String)
  deriving Repr, DecidableEq, Inhabited

/-- `ListResult`: one peer's list response (`data := none` when the query
or the JSON parse failed). -/
structure MergeListResult where
  serverURL : String
  data : Option (List ListItem)
  deriving Repr, DecidableEq

/-- The `sha256` field when it is a usable digest (`ok && != ""`). -/
def validSha (it : ListItem) : Option String :=
  match it.sha256 with
  | some s => if s = "" then none else some s
  | none => none

/-- Append to the group of `key`, creating the group at the end on first
occurrence (determinizing Go map iteration as first-occurrence order). -/
def insertGrouped (key : String) (v : ListItem × String) :
    List (String × List (ListItem × String)) → List (String × List (ListItem × String))
  | [] => [(key, [v])]
  | (k, vs) :: rest =>
    if k = key then (k, vs ++ [v]) :: rest else (k, vs) :: insertGrouped key v rest

/-- One server's inner loop of the `itemsByHash` construction: insert every
item carrying a valid digest, tagged with the server. -/
def groupInsertItems (srv : String) (items : List ListItem)
    (gs : List (String × List (ListItem × String))) :
    List (String × List (ListItem × String)) :=
  items.foldl
    (fun acc it =>
      match validSha it with
      | none => acc
      | some sha => insertGrouped sha (it, srv) acc)
    gs

/-- The `itemsByHash` construction: group every item carrying a valid
digest, tagged with its server, by digest. -/
def groupItems (results : List MergeListResult) :
    List (String × List (ListItem × String)) :=
  results.foldl
    (fun acc r =>
      match r.data with
      | none => acc
      | some items => groupInsertItems r.serverURL items acc)
    []

/-- Copy of the selected item's `nip94` array keeping only non-empty
tag arrays. -/
def cleanTags : Option (List (List String)) → List (List String)
  | none => []
  | some ts => ts.filter (fun t => 0 < t.length)

/-- `hasTag`: some tag has this type and value in its first two slots. -/
def hasTag (tags : List (List String)) (ty v : String) : Bool :=
  tags.any (fun t =>
    match t with
    | a :: b :: _ => a = ty && b = v
    | _ => false)

/-- `hasTagType`: some tag has this type in its first slot. -/
def hasTagType (tags : List (List String)) (ty : String) : Bool :=
  tags.any (fun t =>
    match t with
    | a :: _ => a = ty
    | [] => false)

/-- The URL-collection loop: append a `url` tag for each contributing item
whose `url` field is a non-empty string not already tagged. -/
def addUrlTags (items : List (ListItem × String)) (tags : List (List String)) :
    List (List String) :=
  items.foldl
    (fun tags it =>
      match it.1.url with
      | some u => if u ≠ "" && !hasTag tags "url" u then tags ++ [["url", u]] else tags
      | none => tags)
    tags

/-- Pick the group's representative: the sole item, else the item of the
server chosen by the selection strategy, falling back to the first item
when selection fails or names an absent server.  The strategy itself is
abstracted as `select` (the source dispatches on the configured strategy,
including `random`). -/
def selectGroupItem (select : List String → Option String)
    (items : List (ListItem × String)) : ListItem :=
  match items with
  | [] => default
  | first :: _ =>
    if items.length = 1 then first.1
    else
      let urls := items.map (·.2)
      match select urls with
      | none => first.1
      | some s =>
        match items.find? (fun it => it.2 = s) with
        | some it => it.1
        | none => first.1

/-- The tag list of one digest group before the URL-collection loop: the
representative's cleaned tags with the `x` and `m` tags ensured. -/
def mergeGroupBaseTags (select : List String → Option String) (sha : String)
    (items : List (ListItem × String)) : List (List String) :=
  let selected := selectGroupItem select items
  let tags := cleanTags selected.nip94
  let tags :=
    if sha ≠ "" && !hasTag tags "x" sha && !hasTagType tags "x" then tags ++ [["x", sha]]
    else tags
  let mime :=
    match selected.mimeType with
    | some t => t
    | none => ""
  if mime ≠ "" && !hasTagType tags "m" then tags ++ [["m", mime]] else tags

/-- Merge one digest group: pick the representative, copy its tags, ensure
`x` and `m` tags, append the distinct contributed `url` tags, and return
the representative with the new `nip94`. -/
def mergeGroup (select : List String → Option String) (sha : String)
    (items : List (ListItem × String)) : ListItem :=
  let selected := selectGroupItem select items
  { selected with nip94 := some (addUrlTags items (mergeGroupBaseTags select sha items)) }

/-- The merge half of `listParallelInternal`: group by digest, merge each
group. -/
def listMerge (select : List String → Option String) (results : List MergeListResult) :
    List ListItem :=
  (groupItems results).map (fun g => mergeGroup select g.1 g.2)

/-- The `url`-typed tags of a tag list (for stating duplicate-freedom). -/
def urlTags (tags : List (List String)) : List (List String) :=
  tags.filter (fun t =>
    match t with
    | a :: _ => a = "url"
    | [] => false)

/-- The tag list of an item's `nip94` field. -/
def itemTags (it : ListItem) : List (List String) :=
  match it.nip94 with
  | some ts => ts
  | none => []

/-- Equality of items up to the `nip94` field. -/
def eqModNip94 (a b : ListItem) : Prop :=
  a.sha256 = b.sha256 ∧ a.url = b.url ∧ a.mimeType = b.mimeType ∧ a.rest = b.rest

/-- The singleton group an item with a valid digest contributes. -/
def groupOfItem (srv : String) (it : ListItem) : String × List (ListItem × String) :=
  ((validSha it).getD "", [(it, srv)])

/-! ## Spec-side abbreviations used to state the claims -/

/-- The successful peers of an upload fan-out, with their bodies, in result
order. -/
def expectedSuccesses (results : List UploadResult) : List UploadResultWithResponse :=
  (results.filter (·.success)).map (fun r => ⟨r.serverURL, r.responseBody⟩)

/-- The status codes produced by the failing peers of an upload fan-out. -/
def failingCodes (results : List UploadResult) : List Nat :=
  (results.filter (fun r => !r.success && 0 < r.statusCode)).map (·.statusCode)

/-- The status codes produced by the rejecting peers of a preflight. -/
def rejectionCodes (results : List PreflightResult) : List Nat :=
  (results.filter (fun r => !r.accepted && 0 < r.statusCode)).map (·.statusCode)

/-- The non-empty `X-Reason` values of rejecting peers, in arrival order. -/
def rejectionReasons (results : List PreflightResult) : List String :=
  (results.filter (fun r => !r.accepted && r.xReason ≠ "")).map (·.xReason)

/-- Pointwise order on the per-operation success counters (and the
download counter). -/
def succCountersLE (a b : ServerStats) : Prop :=
  a.uploadsSuccess ≤ b.uploadsSuccess ∧ a.downloads ≤ b.downloads ∧
  a.mirrorsSuccess ≤ b.mirrorsSuccess ∧ a.deletesSuccess ≤ b.deletesSuccess ∧
  a.listsSuccess ≤ b.listsSuccess

/-- The valid digests contributed by all peers, in contribution order. -/
def validShas : List MergeListResult → List String
  | [] => []
  | r :: rest =>
    (match r.data with
     | none => []
     | some items => items.filterMap validSha) ++ validShas rest

/-! ## C2, C3: the auth verifier never reads the tags -/

/-- C2 (code_bug): `ValidateEvent` accepts an event whose `expiration` tag
(`"1"`, i.e. 1970) lies in the past — the source never reads the tags, so
a PUT /upload token with a past expiration passes validation instead of
being rejected with 401. -/
theorem validateEvent_accepts_expired_token :
    validateEvent
      (some
        { kind := 24242, pubkey := String.mk (List.replicate 64 'a'),
          tags := [["t", "upload"], ["expiration", "1"]],
          createdAt := 0, content := "",
          sigCheckError := none, sigValid := true })
      "upload" [] = none := by
  decide

/-- C3 (code_bug): `ValidateEvent` accepts an event whose `t` tag is
`"list"` although the required verb is `"upload"` — the `requiredVerb`
parameter is received but never consulted. -/
theorem validateEvent_accepts_mismatched_verb :
    validateEvent
      (some
        { kind := 24242, pubkey := String.mk (List.replicate 64 'a'),
          tags := [["t", "list"], ["expiration", "99999999999"]],
          createdAt := 0, content := "",
          sigCheckError := none, sigValid := true })
      "upload" [] = none := by
  decide

/-! ## C10: configuration quorum attainability -/

/-- C10 (confirmed): after defaulting (`MinUploadServers` := 2 when unset),
`config.Load` rejects configurations with fewer upstream servers than
`MinUploadServers`, so every successfully loaded configuration can attain
its quorum. -/
theorem configLoad_quorum_attainable (c : Config) :
    (((loadDefaults c).upstreamServers.length : Int) <
        (loadDefaults c).server.minUploadServers →
      ∃ msg, configLoad c = Except.error msg) ∧
    (∀ c2, configLoad c = Except.ok c2 →
      c2.server.minUploadServers ≤ (c2.upstreamServers.length : Int)) := by
  constructor
  · intro h
    refine ⟨"not enough upstream servers", ?_⟩
    simp only [configLoad]
    rw [if_pos h]
  · intro c2 hok
    simp only [configLoad] at hok
    by_cases hc : ((loadDefaults c).upstreamServers.length : Int) <
        (loadDefaults c).server.minUploadServers
    · rw [if_pos hc] at hok
      exact absurd hok (by simp)
    · rw [if_neg hc] at hok
      cases hok
      exact le_of_not_lt hc

/-- Witness for C10 at a concrete configuration: no upstream servers, all
server fields unset, so the defaulted minimum is 2 and loading fails. -/
theorem configLoad_quorum_attainable_witness :
    (((loadDefaults ⟨[], ⟨"", 0, "", "", "", 0, 0, 0, 0, 0, 0, 0, 0, 0, []⟩⟩).upstreamServers.length : Int) <
        (loadDefaults ⟨[], ⟨"", 0, "", "", "", 0, 0, 0, 0, 0, 0, 0, 0, 0, []⟩⟩).server.minUploadServers) ∧
    ∃ msg, configLoad ⟨[], ⟨"", 0, "", "", "", 0, 0, 0, 0, 0, 0, 0, 0, 0, []⟩⟩ = Except.error msg :=
  ⟨by decide,
    (configLoad_quorum_attainable ⟨[], ⟨"", 0, "", "", "", 0, 0, 0, 0, 0, 0, 0, 0, 0, []⟩⟩).1
      (by decide)⟩

/-! ## C9: error-tolerant writer lemmas -/

theorem etwWrite_fst (resp : PipeWriteResp) (p : List Nat) (s : ETWState) :
    (etwWrite resp p s).1 = (p.length, none) := by
  unfold etwWrite
  split
  · rfl
  · cases resp <;> rfl

theorem multiWriteAux_fst (p : List Nat) (l : List (ETWState × PipeWriteResp)) :
    (multiWriteAux p l).1 = (p.length, none) := by
  induction l with
  | nil => rfl
  | cons hd tl ih =>
    obtain ⟨s, r⟩ := hd
    simp only [multiWriteAux]
    rw [etwWrite_fst]
    simp [ih]

theorem copyToPipes_total (o : Nat → Nat → PipeWriteResp) (chunks : List (List Nat)) :
    ∀ (i : Nat) (states : List ETWState),
      (copyToPipes o i chunks states).1 = (chunks.map List.length).sum ∧
      (copyToPipes o i chunks states).2.1 = none := by
  induction chunks with
  | nil => intro i states; exact ⟨rfl, rfl⟩
  | cons p rest ih =>
    intro i states
    simp only [copyToPipes, multiWrite]
    rw [show (multiWriteAux p (states.zip ((List.range states.length).map (o i)))).1
        = (p.length, none) from multiWriteAux_fst _ _]
    simp only [Nat.lt_irrefl, if_neg (Nat.lt_irrefl p.length)]
    obtain ⟨h1, h2⟩ := ih (i + 1)
      (multiWriteAux p (states.zip ((List.range states.length).map (o i)))).2
    simp [h1, h2]

/-- C9 (confirmed): once an `errorTolerantWriter` has observed an error,
every later `Write(p)` returns `(len(p), nil)` without touching the pipe
and `GetError` keeps returning the first error; consequently `io.Copy`
through the composite of such writers always delivers the whole body,
whatever subset of pipes fails. -/
theorem etw_swallows_after_error_and_copy_completes :
    (∀ (s : ETWState) (p : List Nat) (resp : PipeWriteResp) (e : String),
      s.err = some e →
        etwWrite resp p s = ((p.length, none), s) ∧
        etwGetError (etwWrite resp p s).2 = some e) ∧
    (∀ (o : Nat → Nat → PipeWriteResp) (chunks : List (List Nat)) (states : List ETWState),
      (copyToPipes o 0 chunks states).1 = (chunks.map List.length).sum ∧
      (copyToPipes o 0 chunks states).2.1 = none) := by
  constructor
  · intro s p resp e he
    have hskip : etwWrite resp p s = ((p.length, none), s) := by
      unfold etwWrite
      rw [if_pos]
      simp [he]
    exact ⟨hskip, by rw [hskip]; exact he⟩
  · intro o chunks states
    exact copyToPipes_total o chunks 0 states

/-- Witness for C9: a writer already failed with `"boom"` swallows a
2-byte write and keeps its error, at concrete inputs. -/
theorem etw_swallows_after_error_and_copy_completes_witness :
    (ETWState.mk (some "boom") true [] |>.err) = some "boom" ∧
    etwWrite PipeWriteResp.ok [1, 2] ⟨some "boom", true, []⟩ =
      ((2, none), ⟨some "boom", true, []⟩) ∧
    (copyToPipes (fun _ _ => PipeWriteResp.ok) 0 [[1, 2], [3]] [⟨none, false, []⟩]).1 = 3 :=
  ⟨rfl,
    (etw_swallows_after_error_and_copy_completes.1 ⟨some "boom", true, []⟩ [1, 2]
        PipeWriteResp.ok "boom" rfl).1,
    (etw_swallows_after_error_and_copy_completes.2 (fun _ _ => PipeWriteResp.ok)
        [[1, 2], [3]] [⟨none, false, []⟩]).1⟩

/-! ## C1: quorum determinism of the upload fan-outs -/

theorem collectUpload_eq (results : List UploadResult)
    (hinv : ∀ r ∈ results, r.hasError = !r.success) :
    collectUpload results =
      (expectedSuccesses results,
        (results.filter (fun r => !r.success)).map (·.serverURL),
        failingCodes results) := by
  induction results with
  | nil => rfl
  | cons r rest ih =>
    have hr : r.hasError = !r.success := hinv r (List.mem_cons_self _ _)
    have ih2 := ih (fun x hx => hinv x (List.mem_cons_of_mem _ hx))
    by_cases hs : r.success
    · simp [collectUpload, expectedSuccesses, failingCodes, List.filter_cons, hs, hr, ih2]
    · by_cases hcode : 0 < r.statusCode
      · simp [collectUpload, expectedSuccesses, failingCodes, List.filter_cons, hs, hr,
          hcode, ih2]
      · simp [collectUpload, expectedSuccesses, failingCodes, List.filter_cons, hs, hr,
          hcode, ih2]

theorem foldl_min_le_init : ∀ (l : List Nat) (a : Nat), l.foldl min a ≤ a := by
  intro l
  induction l with
  | nil => intro a; exact le_rfl
  | cons x xs ih =>
    intro a
    calc (x :: xs).foldl min a = xs.foldl min (min a x) := rfl
      _ ≤ min a x := ih (min a x)
      _ ≤ a := min_le_left a x

theorem foldl_min_mem : ∀ (rest : List Nat) (c : Nat), rest.foldl min c ∈ c :: rest := by
  intro rest
  induction rest with
  | nil => intro c; exact List.mem_singleton.mpr rfl
  | cons x xs ih =>
    intro c
    have := ih (min c x)
    simp only [List.foldl_cons]
    rcases List.mem_cons.mp this with h | h
    · rcases Nat.le_total c x with hcx | hxc
      · rw [h, min_eq_left hcx]; exact List.mem_cons_self _ _
      · rw [h, min_eq_right hxc]
        exact List.mem_cons_of_mem _ (List.mem_cons_self _ _)
    · exact List.mem_cons_of_mem _ (List.mem_cons_of_mem _ h)

theorem foldl_min_le : ∀ (rest : List Nat) (c : Nat), ∀ x ∈ c :: rest, rest.foldl min c ≤ x := by
  intro rest
  induction rest with
  | nil =>
    intro c x hx
    rw [List.mem_singleton.mp hx]
    exact le_rfl
  | cons y ys ih =>
    intro c x hx
    rcases List.mem_cons.mp hx with h | h
    · subst h
      calc (y :: ys).foldl min x = ys.foldl min (min x y) := rfl
        _ ≤ min x y := foldl_min_le_init ys (min x y)
        _ ≤ x := min_le_left x y
    · rcases List.mem_cons.mp h with h2 | h2
      · subst h2
        calc (x :: ys).foldl min c = ys.foldl min (min c x) := rfl
          _ ≤ min c x := foldl_min_le_init ys (min c x)
          _ ≤ x := min_le_right c x
      · exact ih (min c y) x (List.mem_cons_of_mem _ h2)

/-- C1 (confirmed): on a fixed multiset of per-peer outcomes (where, as the
goroutines guarantee, `hasError = !success`), both upload fan-outs return
exactly the successful peers with no error when at least `minUploadServers`
succeed, and otherwise an error whose handler-visible status is the minimum
status code among failing peers that produced one, or an internal error
mapped to 500 when none did. -/
theorem uploadParallel_quorum_determinism (minUploadServers : Nat)
    (results : List UploadResult)
    (hinv : ∀ r ∈ results, r.hasError = !r.success) :
    uploadParallelStreamingAggregate minUploadServers results =
      uploadParallelAggregate minUploadServers results ∧
    (minUploadServers ≤ (expectedSuccesses results).length →
      uploadParallelAggregate minUploadServers results = (expectedSuccesses results, none)) ∧
    ((expectedSuccesses results).length < minUploadServers →
      ∃ e, uploadParallelAggregate minUploadServers results =
          (expectedSuccesses results, some e) ∧
        (failingCodes results = [] →
          e = UploadAggErr.internal ∧ uploadErrStatus e = 500) ∧
        (failingCodes results ≠ [] →
          uploadErrStatus e ∈ failingCodes results ∧
          ∀ c ∈ failingCodes results, uploadErrStatus e ≤ c)) := by
  refine ⟨rfl, ?_, ?_⟩
  · intro hq
    simp only [uploadParallelAggregate, collectUpload_eq results hinv]
    rw [if_neg (Nat.not_lt.mpr hq)]
  · intro hq
    simp only [uploadParallelAggregate, collectUpload_eq results hinv]
    rw [if_pos hq]
    cases hcodes : failingCodes results with
    | nil =>
      exact ⟨UploadAggErr.internal, rfl, fun _ => ⟨rfl, rfl⟩, fun hne => absurd rfl hne⟩
    | cons c cs =>
      refine ⟨UploadAggErr.withStatus (cs.foldl min c), rfl, ?_, ?_⟩
      · intro habs
        exact absurd habs (by simp)
      · intro _
        exact ⟨foldl_min_mem cs c, foldl_min_le cs c⟩

/-- Witness for C1 at a concrete outcome multiset: one success, failures
with codes 413 and 502, quorum 2. -/
theorem uploadParallel_quorum_determinism_witness :
    (∀ r ∈ [UploadResult.mk "p1" true false 0 "b1",
            UploadResult.mk "p2" false true 413 "",
            UploadResult.mk "p3" false true 502 ""], r.hasError = !r.success) ∧
    uploadParallelStreamingAggregate 2
        [UploadResult.mk "p1" true false 0 "b1",
         UploadResult.mk "p2" false true 413 "",
         UploadResult.mk "p3" false true 502 ""] =
      uploadParallelAggregate 2
        [UploadResult.mk "p1" true false 0 "b1",
         UploadResult.mk "p2" false true 413 "",
         UploadResult.mk "p3" false true 502 ""] :=
  ⟨by decide,
    (uploadParallel_quorum_determinism 2
      [UploadResult.mk "p1" true false 0 "b1",
       UploadResult.mk "p2" false true 413 "",
       UploadResult.mk "p3" false true 502 ""] (by decide)).1⟩

/-! ## C8: preflight status aggregation and reason preservation -/

theorem lowestRejectionCode_transport : ∀ (results : List PreflightResult) (low : Nat),
    results.foldl
      (fun low r =>
        if !r.accepted && 0 < r.statusCode then
          if low = 0 || r.statusCode < low then r.statusCode else low
        else low) low =
    (rejectionCodes results).foldl
      (fun low c => if low = 0 || c < low then c else low) low := by
  intro results
  induction results with
  | nil => intro low; rfl
  | cons r rest ih =>
    intro low
    by_cases hp : (!r.accepted && decide (0 < r.statusCode)) = true
    · simp only [List.foldl_cons, rejectionCodes, List.filter_cons, hp, if_true,
        List.map_cons]
      exact ih _
    · simp only [List.foldl_cons, rejectionCodes, List.filter_cons]
      rw [if_neg hp, if_neg hp]
      exact ih low

theorem foldlLow_pos : ∀ (codes : List Nat) (low : Nat), 0 < low → (∀ c ∈ codes, 0 < c) →
    0 < codes.foldl (fun low c => if low = 0 || c < low then c else low) low ∧
    codes.foldl (fun low c => if low = 0 || c < low then c else low) low ∈ low :: codes ∧
    codes.foldl (fun low c => if low = 0 || c < low then c else low) low ≤ low ∧
    (∀ c ∈ codes, codes.foldl (fun low c => if low = 0 || c < low then c else low) low ≤ c) := by
  intro codes
  induction codes with
  | nil =>
    intro low hlow _
    exact ⟨hlow, List.mem_singleton.mpr rfl, le_rfl, by intro c hc; cases hc⟩
  | cons c cs ih =>
    intro low hlow hpos
    have hlz : ¬ low = 0 := Nat.pos_iff_ne_zero.mp hlow
    have hstep : (if low = 0 || c < low then c else low) = if c < low then c else low := by
      simp [hlz]
    have hlow2 : 0 < (if c < low then c else low) := by
      split
      · exact hpos c (List.mem_cons_self _ _)
      · exact hlow
    have ih2 := ih (if c < low then c else low) hlow2
      (fun x hx => hpos x (List.mem_cons_of_mem _ hx))
    obtain ⟨ihpos, ihmem, ihle, ihall⟩ := ih2
    have hfold : (c :: cs).foldl (fun low c => if low = 0 || c < low then c else low) low =
        cs.foldl (fun low c => if low = 0 || c < low then c else low)
          (if c < low then c else low) := by
      simp only [List.foldl_cons, hstep]
    have hsple : (if c < low then c else low) ≤ low := by
      split
      · exact le_of_lt (by assumption)
      · exact le_rfl
    have hsplec : (if c < low then c else low) ≤ c := by
      split
      · exact le_rfl
      · exact Nat.le_of_not_lt (by assumption)
    refine ⟨?_, ?_, ?_, ?_⟩
    · rw [hfold]; exact ihpos
    · rw [hfold]
      rcases List.mem_cons.mp ihmem with h | h
      · rw [h]
        split
        · exact List.mem_cons_of_mem _ (List.mem_cons_self _ _)
        · exact List.mem_cons_self _ _
      · exact List.mem_cons_of_mem _ (List.mem_cons_of_mem _ h)
    · rw [hfold]; exact le_trans ihle hsple
    · intro x hx
      rw [hfold]
      rcases List.mem_cons.mp hx with h | h
      · rw [h]; exact le_trans ihle hsplec
      · exact ihall x h

theorem rejectionCodes_pos (results : List PreflightResult) :
    ∀ c ∈ rejectionCodes results, 0 < c := by
  intro c hc
  simp only [rejectionCodes, List.mem_map, List.mem_filter] at hc
  obtain ⟨r, ⟨_, hr⟩, hcc⟩ := hc
  rw [← hcc]
  exact of_decide_eq_true (Bool.and_elim_right hr)

theorem lowestRejectionCode_spec (results : List PreflightResult) :
    (rejectionCodes results = [] → lowestRejectionCode results = 0) ∧
    (rejectionCodes results ≠ [] →
      0 < lowestRejectionCode results ∧
      lowestRejectionCode results ∈ rejectionCodes results ∧
      ∀ c ∈ rejectionCodes results, lowestRejectionCode results ≤ c) := by
  constructor
  · intro hnil
    unfold lowestRejectionCode
    rw [lowestRejectionCode_transport results 0, hnil]
    rfl
  · intro hne
    cases hcodes : rejectionCodes results with
    | nil => exact absurd hcodes hne
    | cons c cs =>
      have hpos := rejectionCodes_pos results
      rw [hcodes] at hpos
      have hc0 : 0 < c := hpos c (List.mem_cons_self _ _)
      have hfold : lowestRejectionCode results =
          cs.foldl (fun low c => if low = 0 || c < low then c else low) c := by
        unfold lowestRejectionCode
        rw [lowestRejectionCode_transport results 0, hcodes]
        simp
      have := foldlLow_pos cs c hc0 (fun x hx => hpos x (List.mem_cons_of_mem _ hx))
      obtain ⟨hp, hmem, hle, hall⟩ := this
      refine ⟨?_, ?_, ?_⟩
      · rw [hfold]; exact hp
      · rw [hfold]; exact hmem
      · intro x hx
        rw [hfold]
        rcases List.mem_cons.mp hx with h | h
        · rw [h]; exact hle
        · exact hall x h

theorem preflightReasons_eq (results : List PreflightResult) :
    preflightReasons results = rejectionReasons results := by
  induction results with
  | nil => rfl
  | cons r rest ih =>
    by_cases hp : (!r.accepted && decide (r.xReason ≠ "")) = true
    · have h1 : preflightReasons (r :: rest) = r.xReason :: preflightReasons rest := by
        simp only [preflightReasons]
        rw [if_pos hp]
      have h2 : rejectionReasons (r :: rest) = r.xReason :: rejectionReasons rest := by
        simp only [rejectionReasons, List.filter_cons]
        rw [if_pos hp]
        rfl
      rw [h1, h2, ih]
    · have h1 : preflightReasons (r :: rest) = preflightReasons rest := by
        simp only [preflightReasons]
        rw [if_neg hp]
      have h2 : rejectionReasons (r :: rest) = rejectionReasons rest := by
        simp only [rejectionReasons, List.filter_cons]
        rw [if_neg hp]
      rw [h1, h2, ih]

/-- C8 (confirmed): when fewer than `minUploadServers` capable peers accept
the preflight, the aggregated error's status is the minimum status among
rejecting peers that produced one (400 when none did), and the handler's
`X-Reason` header carries the first `X-Reason` of a rejecting peer in
arrival order whenever one exists. -/
theorem preflight_min_status_and_first_reason (minUploadServers : Nat)
    (results : List PreflightResult)
    (h : (results.filter (·.accepted)).length < minUploadServers) :
    (∃ s, preflightAggregate minUploadServers results = some (UploadAggErr.withStatus s) ∧
      (rejectionCodes results = [] → s = 400) ∧
      (rejectionCodes results ≠ [] →
        s ∈ rejectionCodes results ∧ ∀ c ∈ rejectionCodes results, s ≤ c)) ∧
    preflightReasons results = rejectionReasons results ∧
    (∀ errMsg r rest, rejectionReasons results = r :: rest →
      preflightHeaderReason errMsg results = r) := by
  refine ⟨?_, preflightReasons_eq results, ?_⟩
  · obtain ⟨hnil, hne⟩ := lowestRejectionCode_spec results
    refine ⟨if lowestRejectionCode results = 0 then 400 else lowestRejectionCode results,
      ?_, ?_, ?_⟩
    · simp only [preflightAggregate]
      rw [if_pos h]
    · intro hcodes
      rw [hnil hcodes]
      simp
    · intro hcodes
      obtain ⟨hp, hmem, hall⟩ := hne hcodes
      rw [if_neg (Nat.pos_iff_ne_zero.mp hp)]
      exact ⟨hmem, hall⟩
  · intro errMsg r rest hr
    unfold preflightHeaderReason
    rw [preflightReasons_eq results, hr]

/-- Witness for C8 at a concrete outcome list: one rejection with status
413 and reason `"too big"`, one acceptance, quorum 2. -/
theorem preflight_min_status_and_first_reason_witness :
    (([PreflightResult.mk "p1" false 413 "too big" false,
       PreflightResult.mk "p2" true 200 "" false].filter (·.accepted)).length < 2) ∧
    preflightReasons
        [PreflightResult.mk "p1" false 413 "too big" false,
         PreflightResult.mk "p2" true 200 "" false] =
      rejectionReasons
        [PreflightResult.mk "p1" false 413 "too big" false,
         PreflightResult.mk "p2" true 200 "" false] :=
  ⟨by decide,
    (preflight_min_status_and_first_reason 2
      [PreflightResult.mk "p1" false 413 "too big" false,
       PreflightResult.mk "p2" true 200 "" false] (by decide)).2.1⟩

/-! ## C7: stats monotonicity and health invariant -/

theorem recordSuccess_resets (op : String) (now : Nat) (s : ServerStats) :
    (recordSuccess op now s).consecutiveFailures = 0 ∧
    (recordSuccess op now s).isHealthy = true := by
  simp only [recordSuccess]
  repeat' split
  all_goals exact ⟨rfl, rfl⟩

theorem recordFailure_fields (maxFailures : Nat) (op : String) (now : Nat) (s : ServerStats) :
    (recordFailure maxFailures op now s).consecutiveFailures = s.consecutiveFailures + 1 ∧
    (recordFailure maxFailures op now s).isHealthy =
      (if maxFailures ≤ s.consecutiveFailures + 1 then false else s.isHealthy) := by
  simp only [recordFailure]
  repeat' split
  all_goals simp_all

theorem succCountersLE_trans {a b c : ServerStats}
    (h1 : succCountersLE a b) (h2 : succCountersLE b c) : succCountersLE a c := by
  obtain ⟨u1, d1, m1, e1, l1⟩ := h1
  obtain ⟨u2, d2, m2, e2, l2⟩ := h2
  exact ⟨le_trans u1 u2, le_trans d1 d2, le_trans m1 m2, le_trans e1 e2, le_trans l1 l2⟩

theorem runStatsEvent_mono (maxFailures : Nat) (s : ServerStats) (e : StatsEvent) :
    succCountersLE s (runStatsEvent maxFailures s e) := by
  cases e with
  | success op now =>
    simp only [runStatsEvent, recordSuccess, succCountersLE]
    repeat' split
    all_goals simp_all
  | failure op now =>
    simp only [runStatsEvent, recordFailure, succCountersLE]
    repeat' split
    all_goals simp_all

theorem runStatsEvents_mono (maxFailures : Nat) :
    ∀ (evs : List StatsEvent) (s : ServerStats),
      succCountersLE s (runStatsEvents maxFailures s evs) := by
  intro evs
  induction evs with
  | nil => intro s; exact ⟨le_rfl, le_rfl, le_rfl, le_rfl, le_rfl⟩
  | cons e rest ih =>
    intro s
    exact succCountersLE_trans (runStatsEvent_mono maxFailures s e)
      (ih (runStatsEvent maxFailures s e))

theorem healthy_iff_step (maxFailures : Nat) (s : ServerStats) (e : StatsEvent)
    (hs : s.isHealthy = true ↔ s.consecutiveFailures < maxFailures)
    (h1 : 1 ≤ maxFailures) :
    (runStatsEvent maxFailures s e).isHealthy = true ↔
      (runStatsEvent maxFailures s e).consecutiveFailures < maxFailures := by
  cases e with
  | success op now =>
    have h := recordSuccess_resets op now s
    simp only [runStatsEvent, h.1, h.2]
    simp only [true_iff]
    omega
  | failure op now =>
    have h := recordFailure_fields maxFailures op now s
    simp only [runStatsEvent, h.1, h.2]
    by_cases hle : maxFailures ≤ s.consecutiveFailures + 1
    · rw [if_pos hle]
      simp
      omega
    · rw [if_neg hle]
      have hcf : s.consecutiveFailures < maxFailures := by omega
      rw [hs.mpr hcf]
      simp
      omega

theorem healthy_iff_fold (maxFailures : Nat) (h1 : 1 ≤ maxFailures) :
    ∀ (evs : List StatsEvent) (s : ServerStats),
      (s.isHealthy = true ↔ s.consecutiveFailures < maxFailures) →
      ((runStatsEvents maxFailures s evs).isHealthy = true ↔
        (runStatsEvents maxFailures s evs).consecutiveFailures < maxFailures) := by
  intro evs
  induction evs with
  | nil => intro s hs; exact hs
  | cons e rest ih =>
    intro s hs
    exact ih (runStatsEvent maxFailures s e) (healthy_iff_step maxFailures s e hs h1)

/-- C7 (confirmed): from the initialized entry and with `maxFailures ≥ 1`,
per-operation success counters never decrease along any event sequence,
every `RecordSuccess` zeroes the consecutive-failure count and restores
health, and the health flag holds exactly when the consecutive failures are
below `maxFailures`. -/
theorem stats_monotone_reset_healthy (maxFailures : Nat) (h1 : 1 ≤ maxFailures) :
    (∀ evs more : List StatsEvent,
      succCountersLE (runStatsEvents maxFailures initServerStats evs)
        (runStatsEvents maxFailures initServerStats (evs ++ more))) ∧
    (∀ (s : ServerStats) (op : String) (now : Nat),
      (recordSuccess op now s).consecutiveFailures = 0 ∧
      (recordSuccess op now s).isHealthy = true) ∧
    (∀ evs : List StatsEvent,
      ((runStatsEvents maxFailures initServerStats evs).isHealthy = true ↔
        (runStatsEvents maxFailures initServerStats evs).consecutiveFailures < maxFailures)) := by
  refine ⟨?_, fun s op now => recordSuccess_resets op now s, ?_⟩
  · intro evs more
    have : runStatsEvents maxFailures initServerStats (evs ++ more) =
        runStatsEvents maxFailures (runStatsEvents maxFailures initServerStats evs) more := by
      simp [runStatsEvents, List.foldl_append]
    rw [this]
    exact runStatsEvents_mono maxFailures more _
  · intro evs
    exact healthy_iff_fold maxFailures h1 evs initServerStats
      (by simp only [initServerStats, true_iff]; omega)

/-- Witness for C7 at `maxFailures = 1`: a success call on the initial
entry zeroes the consecutive failures and keeps it healthy. -/
theorem stats_monotone_reset_healthy_witness :
    1 ≤ 1 ∧
    (recordSuccess "upload" 0 initServerStats).consecutiveFailures = 0 ∧
    (recordSuccess "upload" 0 initServerStats).isHealthy = true :=
  ⟨by decide,
    (stats_monotone_reset_healthy 1 (by decide)).2.1 initServerStats "upload" 0⟩

/-! ## C4: digest canonicalisation in the cache -/

theorem extractHash_of_long {p : String} (h : 64 ≤ p.length) :
    extractHash p = String.mk (p.data.take 64) := by
  unfold extractHash
  rw [if_pos h]

theorem length_take64 (p : String) (h : 64 ≤ p.length) :
    (String.mk (p.data.take 64)).length = 64 := by
  show (p.data.take 64).length = 64
  have hd : p.length = p.data.length := rfl
  rw [List.length_take]
  omega

theorem extractHash_idem_long {p : String} (h : 64 ≤ p.length) :
    extractHash (String.mk (p.data.take 64)) = String.mk (p.data.take 64) := by
  unfold extractHash
  rw [if_pos (le_of_eq (length_take64 p h).symm)]
  show String.mk ((p.data.take 64).take 64) = String.mk (p.data.take 64)
  rw [List.take_take]
  simp

theorem extractHash_congr_long {p : String} (h : 64 ≤ p.length) :
    extractHash p = extractHash (String.mk (p.data.take 64)) := by
  rw [extractHash_of_long h, extractHash_idem_long h]

theorem alLookup_insert (k : String) (v : CacheEntry) :
    ∀ l, alLookup k (alInsert k v l) = some v := by
  intro l
  induction l with
  | nil => simp [alInsert, alLookup]
  | cons p rest ih =>
    obtain ⟨k2, v2⟩ := p
    by_cases hk : k2 = k
    · simp [alInsert, alLookup, hk]
    · simp only [alInsert, alLookup, if_neg hk]
      exact ih

/-- C4 (corrected): every cache operation keys on `extractHash`, so a path
of length ≥ 64 addresses the same slot as its 64-character prefix (a digest
with and without extension share one entry); but a path shorter than 64
characters is keyed as itself — the operations are not no-ops: adding under
a short path makes `Get` of that path return the servers. -/
theorem cache_digest_canonicalisation (p : String) :
    (64 ≤ p.length →
      (∀ servers now c,
        cacheAdd p servers now c = cacheAdd (String.mk (p.data.take 64)) servers now c) ∧
      (∀ now c, cacheGet p now c = cacheGet (String.mk (p.data.take 64)) now c) ∧
      (∀ c, cacheRemove p c = cacheRemove (String.mk (p.data.take 64)) c) ∧
      (∀ server now c,
        cacheAddServer p server now c = cacheAddServer (String.mk (p.data.take 64)) server now c) ∧
      (∀ server now c,
        cacheRemoveServer p server now c =
          cacheRemoveServer (String.mk (p.data.take 64)) server now c)) ∧
    (p.length < 64 →
      ∀ servers now c, (cacheGet p now (cacheAdd p servers now c)).1 = some servers) := by
  constructor
  · intro h
    have hc := extractHash_congr_long h
    refine ⟨?_, ?_, ?_, ?_, ?_⟩
    · intro servers now c; unfold cacheAdd; rw [hc]
    · intro now c; unfold cacheGet; rw [hc]
    · intro c; unfold cacheRemove; rw [hc]
    · intro server now c; unfold cacheAddServer; rw [hc]
    · intro server now c; unfold cacheRemoveServer; rw [hc]
  · intro h servers now c
    have hshort : extractHash p = p := by
      unfold extractHash
      rw [if_neg (not_le.mpr h)]
    have hadd : (cacheAdd p servers now c).items =
        alInsert p ⟨servers, now, now⟩
          (if (alLookup p c.items).isNone && decide (c.maxSize ≤ c.items.length) then
            (evictOldest now c).items
          else c.items) := by
      unfold cacheAdd
      rw [hshort]
    simp only [cacheGet, hshort, hadd, alLookup_insert]
    have hexp : entryExpired (cacheAdd p servers now c).ttl now now = false := by
      unfold entryExpired
      simp
    unfold entryExpired
    simp

/-- Counterexample to C4 as stated: on the 3-character path `"abc"` the
operations are not no-ops — `Add` creates an entry and `Get` returns it. -/
theorem cache_short_path_not_noop :
    ("abc" : String).length < 64 ∧
    (cacheGet "abc" 0 (cacheAdd "abc" ["s"] 0 (emptyCache 0 10))).1 = some ["s"] ∧
    (cacheAdd "abc" ["s"] 0 (emptyCache 0 10)).items ≠ [] := by
  refine ⟨by decide, rfl, by decide⟩

/-- Witness for C4 at a concrete 65-character path: the operations agree
with those on its 64-character prefix. -/
theorem cache_digest_canonicalisation_witness :
    64 ≤ (String.mk (List.replicate 65 'a')).length ∧
    ∀ c, cacheRemove (String.mk (List.replicate 65 'a')) c =
      cacheRemove (String.mk ((String.mk (List.replicate 65 'a')).data.take 64)) c :=
  ⟨by decide,
    ((cache_digest_canonicalisation (String.mk (List.replicate 65 'a'))).1
      (by decide)).2.2.1⟩

/-! ## C5: cache size bound -/

theorem alInsert_length (k : String) (v : CacheEntry) :
    ∀ l, (alInsert k v l).length =
      if (alLookup k l).isSome then l.length else l.length + 1 := by
  intro l
  induction l with
  | nil => simp [alInsert, alLookup]
  | cons p rest ih =>
    obtain ⟨k2, v2⟩ := p
    by_cases hk : k2 = k
    · simp [alInsert, alLookup, hk]
    · simp only [alInsert, alLookup, if_neg hk, List.length_cons, ih]
      by_cases hs : (alLookup k rest).isSome
      · rw [if_pos hs, if_pos hs]
      · rw [if_neg hs, if_neg hs]

theorem alInsert_mem {k : String} {v : CacheEntry} :
    ∀ {l q}, q ∈ alInsert k v l → q = (k, v) ∨ q ∈ l := by
  intro l
  induction l with
  | nil =>
    intro q hq
    simp [alInsert] at hq
    exact Or.inl hq
  | cons p rest ih =>
    intro q hq
    obtain ⟨k2, v2⟩ := p
    by_cases hk : k2 = k
    · simp only [alInsert, if_pos hk] at hq
      rcases List.mem_cons.mp hq with h | h
      · exact Or.inl h
      · exact Or.inr (List.mem_cons_of_mem _ h)
    · simp only [alInsert, if_neg hk] at hq
      rcases List.mem_cons.mp hq with h | h
      · exact Or.inr (h ▸ List.mem_cons_self _ _)
      · rcases ih h with h2 | h2
        · exact Or.inl h2
        · exact Or.inr (List.mem_cons_of_mem _ h2)

theorem alErase_sublist (k : String) : ∀ l, List.Sublist (alErase k l) l := by
  intro l
  induction l with
  | nil => exact List.Sublist.refl _
  | cons p rest ih =>
    obtain ⟨k2, v2⟩ := p
    by_cases hk : k2 = k
    · simp only [alErase, if_pos hk]
      exact List.sublist_cons_self _ _
    · simp only [alErase, if_neg hk]
      exact List.Sublist.cons₂ _ ih

theorem alErase_length (k : String) :
    ∀ {l}, k ∈ l.map Prod.fst → (alErase k l).length + 1 = l.length := by
  intro l
  induction l with
  | nil => intro h; cases h
  | cons p rest ih =>
    intro h
    obtain ⟨k2, v2⟩ := p
    by_cases hk : k2 = k
    · simp only [alErase, if_pos hk, List.length_cons]
    · simp only [alErase, if_neg hk, List.length_cons]
      have hmem : k ∈ rest.map Prod.fst := by
        simp only [List.map_cons, List.mem_cons] at h
        rcases h with h | h
        · exact absurd h.symm hk
        · exact h
      rw [← ih hmem]

theorem findOldestAux_mem :
    ∀ (l : List (String × CacheEntry)) (cur), findOldestAux cur l ∈ cur :: l := by
  intro l
  induction l with
  | nil => intro cur; exact List.mem_singleton.mpr rfl
  | cons p rest ih =>
    intro cur
    simp only [findOldestAux]
    split
    · rcases List.mem_cons.mp (ih p) with h | h
      · rw [h]; exact List.mem_cons_of_mem _ (List.mem_cons_self _ _)
      · exact List.mem_cons_of_mem _ (List.mem_cons_of_mem _ h)
    · rcases List.mem_cons.mp (ih cur) with h | h
      · rw [h]; exact List.mem_cons_self _ _
      · exact List.mem_cons_of_mem _ (List.mem_cons_of_mem _ h)

theorem findOldest_mem {l : List (String × CacheEntry)} {p : String × CacheEntry}
    (h : findOldest l = some p) : p ∈ l := by
  cases l with
  | nil => cases h
  | cons hd tl =>
    simp only [findOldest, Option.some_inj] at h
    rw [← h]
    exact findOldestAux_mem tl hd

theorem extractHash_ne_empty {p : String} (hp : p ≠ "") : extractHash p ≠ "" := by
  unfold extractHash
  split
  · rename_i hlong
    intro hcon
    have hdata : (p.data.take 64) = [] := congrArg String.data hcon
    have h0 : (p.data.take 64).length = 0 := by rw [hdata]; rfl
    have hd : p.length = p.data.length := rfl
    rw [List.length_take] at h0
    omega
  · exact hp

theorem evictOldest_spec (now : Nat) (c : Cache) (h1 : 1 ≤ c.maxSize)
    (hlen : c.items.length ≤ c.maxSize) (hfull : c.maxSize ≤ c.items.length)
    (hkeys : ∀ q ∈ c.items, q.1 ≠ "") :
    (evictOldest now c).items.length < c.maxSize ∧
    List.Sublist (evictOldest now c).items c.items ∧
    (evictOldest now c).ttl = c.ttl ∧
    (evictOldest now c).maxSize = c.maxSize := by
  have hnotlt : ¬ c.items.length < c.maxSize := not_lt.mpr hfull
  unfold evictOldest
  rw [if_neg hnotlt]
  simp only []
  have hsub : List.Sublist (c.items.filter fun p => !entryExpired c.ttl now p.2.createdAt)
      c.items := List.filter_sublist _
  have hlenf : (c.items.filter fun p => !entryExpired c.ttl now p.2.createdAt).length ≤
      c.items.length := hsub.length_le
  by_cases h2 : c.maxSize ≤ (c.items.filter fun p => !entryExpired c.ttl now p.2.createdAt).length
  · rw [if_pos h2]
    cases hrem : c.items.filter fun p => !entryExpired c.ttl now p.2.createdAt with
    | nil =>
      rw [hrem] at h2
      simp at h2
      omega
    | cons hd tl =>
      simp only [findOldest]
      have hmemrem : findOldestAux hd tl ∈ c.items.filter
          fun p => !entryExpired c.ttl now p.2.createdAt := by
        rw [hrem]; exact findOldestAux_mem tl hd
      have hmemitems : findOldestAux hd tl ∈ c.items := hsub.mem hmemrem
      have hkey : (findOldestAux hd tl).1 ≠ "" := hkeys _ hmemitems
      rw [if_neg hkey]
      refine ⟨?_, ?_, by trivial, by trivial⟩
      · have hkmem : (findOldestAux hd tl).1 ∈ (hd :: tl).map Prod.fst := by
          rw [hrem] at hmemrem
          exact List.mem_map_of_mem Prod.fst hmemrem
        have := alErase_length (findOldestAux hd tl).1 hkmem
        rw [hrem] at h2 hlenf
        simp only [List.length_cons] at this h2 hlenf
        show (alErase (findOldestAux hd tl).1 (hd :: tl)).length < c.maxSize
        omega
      · exact List.Sublist.trans (alErase_sublist _ _) (hrem ▸ hsub)
  · rw [if_neg h2]
    exact ⟨not_le.mp h2, hsub, by trivial, by trivial⟩

theorem cacheAdd_inv (path : String) (servers : List String) (now : Nat) (c : Cache)
    (h1 : 1 ≤ c.maxSize) (hp : path ≠ "")
    (hlen : c.items.length ≤ c.maxSize) (hkeys : ∀ q ∈ c.items, q.1 ≠ "") :
    (cacheAdd path servers now c).items.length ≤ c.maxSize ∧
    (∀ q ∈ (cacheAdd path servers now c).items, q.1 ≠ "") ∧
    (cacheAdd path servers now c).ttl = c.ttl ∧
    (cacheAdd path servers now c).maxSize = c.maxSize := by
  have hh : extractHash path ≠ "" := extractHash_ne_empty hp
  unfold cacheAdd
  simp only []
  by_cases hcond : ((alLookup (extractHash path) c.items).isNone &&
      decide (c.maxSize ≤ c.items.length)) = true
  · rw [if_pos hcond]
    have hfull : c.maxSize ≤ c.items.length := by
      have := (Bool.and_eq_true _ _).mp hcond
      exact of_decide_eq_true this.2
    obtain ⟨hevlen, hevsub, _, _⟩ := evictOldest_spec now c h1 hlen hfull hkeys
    refine ⟨?_, ?_, by trivial, by trivial⟩
    · have := alInsert_length (extractHash path) ⟨servers, now, now⟩ (evictOldest now c).items
      by_cases hs : (alLookup (extractHash path) (evictOldest now c).items).isSome
      · rw [this, if_pos hs]; omega
      · rw [this, if_neg hs]; omega
    · intro q hq
      rcases alInsert_mem hq with h | h
      · rw [h]; exact hh
      · exact hkeys q (hevsub.mem h)
  · rw [if_neg hcond]
    refine ⟨?_, ?_, by trivial, by trivial⟩
    · have hins := alInsert_length (extractHash path) ⟨servers, now, now⟩ c.items
      by_cases hs : (alLookup (extractHash path) c.items).isSome
      · rw [hins, if_pos hs]; exact hlen
      · rw [hins, if_neg hs]
        have hnotfull : ¬ c.maxSize ≤ c.items.length := by
          intro hfull
          exact hcond (by simp [Option.isNone_iff_eq_none,
            Option.not_isSome_iff_eq_none.mp hs, hfull])
        omega
    · intro q hq
      rcases alInsert_mem hq with h | h
      · rw [h]; exact hh
      · exact hkeys q h

theorem cacheAddServer_inv (path server : String) (now : Nat) (c : Cache)
    (h1 : 1 ≤ c.maxSize) (hp : path ≠ "")
    (hlen : c.items.length ≤ c.maxSize) (hkeys : ∀ q ∈ c.items, q.1 ≠ "") :
    (cacheAddServer path server now c).items.length ≤ c.maxSize ∧
    (∀ q ∈ (cacheAddServer path server now c).items, q.1 ≠ "") ∧
    (cacheAddServer path server now c).ttl = c.ttl ∧
    (cacheAddServer path server now c).maxSize = c.maxSize := by
  have hh : extractHash path ≠ "" := extractHash_ne_empty hp
  unfold cacheAddServer
  cases hl : alLookup (extractHash path) c.items with
  | none =>
    simp only [hl]
    by_cases hfull : c.maxSize ≤ c.items.length
    · rw [if_pos hfull]
      obtain ⟨hevlen, hevsub, _, _⟩ := evictOldest_spec now c h1 hlen hfull hkeys
      refine ⟨?_, ?_, by trivial, by trivial⟩
      · have := alInsert_length (extractHash path) ⟨[server], now, now⟩
          (evictOldest now c).items
        by_cases hs : (alLookup (extractHash path) (evictOldest now c).items).isSome
        · rw [this, if_pos hs]; omega
        · rw [this, if_neg hs]; omega
      · intro q hq
        rcases alInsert_mem hq with h | h
        · rw [h]; exact hh
        · exact hkeys q (hevsub.mem h)
    · rw [if_neg hfull]
      refine ⟨?_, ?_, by trivial, by trivial⟩
      · have hins := alInsert_length (extractHash path) ⟨[server], now, now⟩ c.items
        by_cases hs : (alLookup (extractHash path) c.items).isSome
        · rw [hins, if_pos hs]; exact hlen
        · rw [hins, if_neg hs]; omega
      · intro q hq
        rcases alInsert_mem hq with h | h
        · rw [h]; exact hh
        · exact hkeys q h
  | some e =>
    simp only [hl]
    have hsome : (alLookup (extractHash path) c.items).isSome := by rw [hl]; rfl
    have hinslen : ∀ v : CacheEntry,
        (alInsert (extractHash path) v c.items).length = c.items.length := by
      intro v
      rw [alInsert_length, if_pos hsome]
    have hinskeys : ∀ (v : CacheEntry) (q : String × CacheEntry),
        q ∈ alInsert (extractHash path) v c.items → q.1 ≠ "" := by
      intro v q hq
      rcases alInsert_mem hq with h | h
      · rw [h]; exact hh
      · exact hkeys q h
    by_cases hexp : entryExpired c.ttl now e.createdAt
    · simp only [if_pos hexp]
      exact ⟨by rw [hinslen]; exact hlen, hinskeys _, by trivial, by trivial⟩
    · simp only [if_neg hexp]
      by_cases hmem : server ∈ e.servers
      · rw [if_pos hmem]
        exact ⟨by rw [hinslen]; exact hlen, hinskeys _, by trivial, by trivial⟩
      · rw [if_neg hmem]
        exact ⟨by rw [hinslen]; exact hlen, hinskeys _, by trivial, by trivial⟩

theorem runCacheOps_inv : ∀ (ops : List CacheOp) (c : Cache),
    1 ≤ c.maxSize → (∀ op ∈ ops, op.path ≠ "") →
    c.items.length ≤ c.maxSize → (∀ q ∈ c.items, q.1 ≠ "") →
    (runCacheOps c ops).items.length ≤ c.maxSize ∧
    (∀ q ∈ (runCacheOps c ops).items, q.1 ≠ "") ∧
    (runCacheOps c ops).maxSize = c.maxSize := by
  intro ops
  induction ops with
  | nil => intro c _ _ hlen hkeys; exact ⟨hlen, hkeys, rfl⟩
  | cons op rest ih =>
    intro c h1 hpaths hlen hkeys
    have hop : op.path ≠ "" := hpaths op (List.mem_cons_self _ _)
    have hrest : ∀ o ∈ rest, o.path ≠ "" := fun o ho => hpaths o (List.mem_cons_of_mem _ ho)
    have hstep : (runCacheOp c op).items.length ≤ c.maxSize ∧
        (∀ q ∈ (runCacheOp c op).items, q.1 ≠ "") ∧
        (runCacheOp c op).ttl = c.ttl ∧
        (runCacheOp c op).maxSize = c.maxSize := by
      cases op with
      | add path servers now => exact cacheAdd_inv path servers now c h1 hop hlen hkeys
      | addServer path server now => exact cacheAddServer_inv path server now c h1 hop hlen hkeys
    obtain ⟨hslen, hskeys, _, hsmax⟩ := hstep
    have hrun : runCacheOps c (op :: rest) = runCacheOps (runCacheOp c op) rest := rfl
    rw [hrun]
    have := ih (runCacheOp c op) (by rw [hsmax]; exact h1) hrest (by rw [hsmax]; exact hslen)
      hskeys
    rw [hsmax] at this
    exact this

/-- C5 (corrected, amended to non-empty paths): over every interleaving of
`Add` and `AddServer` whose paths are non-empty, the entry count never
exceeds `maxSize` (for `maxSize ≥ 1`).  The restriction is needed because
`evictOldest` declines to evict when the least-recently-accessed key is the
empty string. -/
theorem cache_size_bound (ttl maxSize : Nat) (ops : List CacheOp)
    (h1 : 1 ≤ maxSize) (hpaths : ∀ op ∈ ops, op.path ≠ "") :
    (runCacheOps (emptyCache ttl maxSize) ops).items.length ≤ maxSize :=
  (runCacheOps_inv ops (emptyCache ttl maxSize) h1 hpaths
    (by simp [emptyCache]) (by simp [emptyCache])).1

/-- Counterexample to C5 as stated (arbitrary paths): with `maxSize = 1`,
adding under the empty path and then under `"y"` leaves two entries,
because `evictOldest` skips eviction when the oldest key is `""`. -/
theorem cache_size_bound_counterexample :
    (emptyCache 5 1).maxSize = 1 ∧
    (runCacheOps (emptyCache 5 1)
      [CacheOp.add "" ["s"] 0, CacheOp.add "y" ["s"] 0]).items.length = 2 :=
  ⟨rfl, rfl⟩

/-- Witness for C5 at a concrete interleaving with non-empty paths and
`maxSize = 1`. -/
theorem cache_size_bound_witness :
    1 ≤ 1 ∧
    (∀ op ∈ [CacheOp.add "a" ["s"] 0, CacheOp.addServer "b" "s" 1], op.path ≠ "") ∧
    (runCacheOps (emptyCache 0 1)
      [CacheOp.add "a" ["s"] 0, CacheOp.addServer "b" "s" 1]).items.length ≤ 1 :=
  ⟨by decide, by decide,
    cache_size_bound 0 1 [CacheOp.add "a" ["s"] 0, CacheOp.addServer "b" "s" 1]
      (by decide) (by decide)⟩

/-! ## C6: list-merge grouping lemmas -/

theorem insertGrouped_keys (key : String) (v : ListItem × String) :
    ∀ gs, (insertGrouped key v gs).map (·.1) =
      if key ∈ gs.map (·.1) then gs.map (·.1) else gs.map (·.1) ++ [key] := by
  intro gs
  induction gs with
  | nil => simp [insertGrouped]
  | cons g rest ih =>
    obtain ⟨k, vs⟩ := g
    by_cases hk : k = key
    · simp [insertGrouped, hk]
    · simp only [insertGrouped, if_neg hk, List.map_cons, ih]
      by_cases hmem : key ∈ rest.map (·.1)
      · rw [if_pos hmem, if_pos (List.mem_cons_of_mem _ hmem)]
      · rw [if_neg hmem, if_neg (by
          intro hc
          rcases List.mem_cons.mp hc with h | h
          · exact hk h.symm
          · exact hmem h)]
        rfl

theorem insertGrouped_keys_mem (key : String) (v : ListItem × String)
    (gs : List (String × List (ListItem × String))) (sha : String) :
    sha ∈ (insertGrouped key v gs).map (·.1) ↔ sha = key ∨ sha ∈ gs.map (·.1) := by
  rw [insertGrouped_keys]
  by_cases hmem : key ∈ gs.map (·.1)
  · rw [if_pos hmem]
    constructor
    · exact Or.inr
    · intro h
      rcases h with h | h
      · rw [h]; exact hmem
      · exact h
  · rw [if_neg hmem]
    simp [List.mem_append, or_comm]

theorem insertGrouped_keys_nodup (key : String) (v : ListItem × String)
    (gs : List (String × List (ListItem × String)))
    (h : (gs.map (·.1)).Nodup) : ((insertGrouped key v gs).map (·.1)).Nodup := by
  rw [insertGrouped_keys]
  by_cases hmem : key ∈ gs.map (·.1)
  · rw [if_pos hmem]; exact h
  · rw [if_neg hmem]
    simp [List.nodup_append, h, hmem]

theorem insertGrouped_wf (key : String) (v : ListItem × String)
    (hv : validSha v.1 = some key) :
    ∀ gs, (∀ g ∈ gs, g.2 ≠ [] ∧ ∀ p ∈ g.2, validSha p.1 = some g.1) →
      ∀ g ∈ insertGrouped key v gs, g.2 ≠ [] ∧ ∀ p ∈ g.2, validSha p.1 = some g.1 := by
  intro gs
  induction gs with
  | nil =>
    intro _ g hg
    simp only [insertGrouped, List.mem_singleton] at hg
    rw [hg]
    refine ⟨by simp, ?_⟩
    intro p hp
    rw [List.mem_singleton.mp hp]
    exact hv
  | cons g0 rest ih =>
    intro hwf g hg
    obtain ⟨k, vs⟩ := g0
    by_cases hk : k = key
    · simp only [insertGrouped, if_pos hk] at hg
      rcases List.mem_cons.mp hg with h | h
      · rw [h]
        have h0 := hwf (k, vs) (List.mem_cons_self _ _)
        refine ⟨by simp, ?_⟩
        intro p hp
        rcases List.mem_append.mp hp with h2 | h2
        · exact h0.2 p h2
        · rw [List.mem_singleton.mp h2, hk]
          exact hv
      · exact hwf g (List.mem_cons_of_mem _ h)
    · simp only [insertGrouped, if_neg hk] at hg
      rcases List.mem_cons.mp hg with h | h
      · exact hwf g (h ▸ List.mem_cons_self _ _)
      · exact ih (fun g2 hg2 => hwf g2 (List.mem_cons_of_mem _ hg2)) g h

theorem groupInsertItems_keys_mem (srv : String) :
    ∀ (items : List ListItem) gs sha,
      sha ∈ (groupInsertItems srv items gs).map (·.1) ↔
        sha ∈ gs.map (·.1) ∨ sha ∈ items.filterMap validSha := by
  intro items
  induction items with
  | nil => intro gs sha; simp [groupInsertItems]
  | cons it rest ih =>
    intro gs sha
    cases hv : validSha it with
    | none =>
      have hstep : groupInsertItems srv (it :: rest) gs = groupInsertItems srv rest gs := by
        simp only [groupInsertItems, List.foldl_cons, hv]
      rw [hstep, List.filterMap_cons, hv, ih]
    | some s =>
      have hstep : groupInsertItems srv (it :: rest) gs =
          groupInsertItems srv rest (insertGrouped s (it, srv) gs) := by
        simp only [groupInsertItems, List.foldl_cons, hv]
      rw [hstep, List.filterMap_cons, hv, ih, insertGrouped_keys_mem]
      simp only [List.mem_cons]
      tauto

theorem groupInsertItems_keys_nodup (srv : String) :
    ∀ (items : List ListItem) gs, (gs.map (·.1)).Nodup →
      ((groupInsertItems srv items gs).map (·.1)).Nodup := by
  intro items
  induction items with
  | nil => intro gs h; exact h
  | cons it rest ih =>
    intro gs h
    cases hv : validSha it with
    | none =>
      have hstep : groupInsertItems srv (it :: rest) gs = groupInsertItems srv rest gs := by
        simp only [groupInsertItems, List.foldl_cons, hv]
      rw [hstep]
      exact ih gs h
    | some s =>
      have hstep : groupInsertItems srv (it :: rest) gs =
          groupInsertItems srv rest (insertGrouped s (it, srv) gs) := by
        simp only [groupInsertItems, List.foldl_cons, hv]
      rw [hstep]
      exact ih _ (insertGrouped_keys_nodup s (it, srv) gs h)

theorem groupInsertItems_wf (srv : String) :
    ∀ (items : List ListItem) gs,
      (∀ g ∈ gs, g.2 ≠ [] ∧ ∀ p ∈ g.2, validSha p.1 = some g.1) →
      ∀ g ∈ groupInsertItems srv items gs,
        g.2 ≠ [] ∧ ∀ p ∈ g.2, validSha p.1 = some g.1 := by
  intro items
  induction items with
  | nil => intro gs h; exact h
  | cons it rest ih =>
    intro gs h
    cases hv : validSha it with
    | none =>
      have hstep : groupInsertItems srv (it :: rest) gs = groupInsertItems srv rest gs := by
        simp only [groupInsertItems, List.foldl_cons, hv]
      rw [hstep]
      exact ih gs h
    | some s =>
      have hstep : groupInsertItems srv (it :: rest) gs =
          groupInsertItems srv rest (insertGrouped s (it, srv) gs) := by
        simp only [groupInsertItems, List.foldl_cons, hv]
      rw [hstep]
      exact ih _ (insertGrouped_wf s (it, srv) hv gs h)

theorem groupItems_aux_mem :
    ∀ (results : List MergeListResult) gs sha,
      sha ∈ ((results.foldl
        (fun (acc : List (String × List (ListItem × String))) (r : MergeListResult) =>
          match r.data with
          | none => acc
          | some items => groupInsertItems r.serverURL items acc) gs).map (·.1)) ↔
      sha ∈ gs.map (·.1) ∨ sha ∈ validShas results := by
  intro results
  induction results with
  | nil => intro gs sha; simp [validShas]
  | cons r rest ih =>
    intro gs sha
    cases hd : r.data with
    | none =>
      simp only [List.foldl_cons, hd, validShas, ih]
      simp
    | some items =>
      simp only [List.foldl_cons, hd, validShas, ih, groupInsertItems_keys_mem]
      simp only [List.mem_append]
      tauto

theorem groupItems_aux_nodup :
    ∀ (results : List MergeListResult) gs, (gs.map (·.1)).Nodup →
      ((results.foldl
        (fun (acc : List (String × List (ListItem × String))) (r : MergeListResult) =>
          match r.data with
          | none => acc
          | some items => groupInsertItems r.serverURL items acc) gs).map (·.1)).Nodup := by
  intro results
  induction results with
  | nil => intro gs h; exact h
  | cons r rest ih =>
    intro gs h
    cases hd : r.data with
    | none =>
      simp only [List.foldl_cons, hd]
      exact ih gs h
    | some items =>
      simp only [List.foldl_cons, hd]
      exact ih _ (groupInsertItems_keys_nodup r.serverURL items gs h)

theorem groupItems_aux_wf :
    ∀ (results : List MergeListResult) gs,
      (∀ g ∈ gs, g.2 ≠ [] ∧ ∀ p ∈ g.2, validSha p.1 = some g.1) →
      ∀ g ∈ (results.foldl
        (fun (acc : List (String × List (ListItem × String))) (r : MergeListResult) =>
          match r.data with
          | none => acc
          | some items => groupInsertItems r.serverURL items acc) gs),
        g.2 ≠ [] ∧ ∀ p ∈ g.2, validSha p.1 = some g.1 := by
  intro results
  induction results with
  | nil => intro gs h; exact h
  | cons r rest ih =>
    intro gs h
    cases hd : r.data with
    | none =>
      simp only [List.foldl_cons, hd]
      exact ih gs h
    | some items =>
      simp only [List.foldl_cons, hd]
      exact ih _ (groupInsertItems_wf r.serverURL items gs h)

theorem groupItems_keys_mem (results : List MergeListResult) (sha : String) :
    sha ∈ (groupItems results).map (·.1) ↔ sha ∈ validShas results := by
  unfold groupItems
  rw [groupItems_aux_mem]
  simp

theorem groupItems_keys_nodup (results : List MergeListResult) :
    ((groupItems results).map (·.1)).Nodup := by
  unfold groupItems
  exact groupItems_aux_nodup results [] (by simp)

theorem groupItems_wf (results : List MergeListResult) :
    ∀ g ∈ groupItems results, g.2 ≠ [] ∧ ∀ p ∈ g.2, validSha p.1 = some g.1 := by
  unfold groupItems
  exact groupItems_aux_wf results [] (by simp)

/-! ## C6: representative and tag lemmas -/

theorem validSha_some {it : ListItem} {sha : String} (h : validSha it = some sha) :
    it.sha256 = some sha ∧ sha ≠ "" := by
  unfold validSha at h
  split at h
  · rename_i s hs
    split at h
    · cases h
    · rename_i hempty
      cases h
      exact ⟨hs, hempty⟩
  · cases h

theorem selectGroupItem_mem (select : List String → Option String)
    (items : List (ListItem × String)) (h : items ≠ []) :
    selectGroupItem select items ∈ items.map (·.1) := by
  cases items with
  | nil => exact absurd rfl h
  | cons first rest =>
    simp only [selectGroupItem]
    by_cases hlen : (first :: rest).length = 1
    · rw [if_pos hlen]
      exact List.mem_map_of_mem _ (List.mem_cons_self _ _)
    · rw [if_neg hlen]
      cases select ((first :: rest).map (·.2)) with
      | none => exact List.mem_map_of_mem _ (List.mem_cons_self _ _)
      | some s =>
        simp only []
        cases hf : (first :: rest).find? (fun it => it.2 = s) with
        | none => exact List.mem_map_of_mem _ (List.mem_cons_self _ _)
        | some it =>
          exact List.mem_map_of_mem _ (List.mem_of_find?_eq_some hf)

theorem mergeGroup_sha (select : List String → Option String) (sha : String)
    (items : List (ListItem × String)) (hne : items ≠ [])
    (hwf : ∀ p ∈ items, validSha p.1 = some sha) :
    (mergeGroup select sha items).sha256 = some sha := by
  have hmem := selectGroupItem_mem select items hne
  obtain ⟨p, hp, hsel⟩ := List.mem_map.mp hmem
  have hv := validSha_some (hwf p hp)
  show (selectGroupItem select items).sha256 = some sha
  rw [← hsel]
  exact hv.1

theorem hasTag_append_mono {tags : List (List String)} {ty v : String}
    (t : List String) (h : hasTag tags ty v = true) :
    hasTag (tags ++ [t]) ty v = true := by
  unfold hasTag at h ⊢
  simp [List.any_append, h]

theorem hasTag_append_self (tags : List (List String)) (ty v : String) :
    hasTag (tags ++ [[ty, v]]) ty v = true := by
  simp [hasTag, List.any_append]

theorem hasTag_of_mem_pair {tags : List (List String)} {ty v : String}
    (h : [ty, v] ∈ tags) : hasTag tags ty v = true := by
  simp only [hasTag, List.any_eq_true]
  exact ⟨[ty, v], h, by simp⟩

theorem not_mem_of_not_hasTag {tags : List (List String)} {ty v : String}
    (h : hasTag tags ty v = false) : [ty, v] ∉ tags := by
  intro hmem
  rw [hasTag_of_mem_pair hmem] at h
  cases h

theorem urlTags_append (tags : List (List String)) (t : List String) :
    urlTags (tags ++ [t]) = urlTags tags ++ urlTags [t] := by
  simp [urlTags, List.filter_append]

theorem urlTags_single_url (u : String) : urlTags [["url", u]] = [["url", u]] := by
  simp [urlTags]

theorem urlTags_single_not_url {a : String} (h : a ≠ "url") (rest : List String) :
    urlTags [a :: rest] = [] := by
  simp [urlTags, h]

theorem not_mem_urlTags {tags : List (List String)} {t : List String}
    (h : t ∉ tags) : t ∉ urlTags tags := by
  intro hmem
  exact h (List.mem_of_mem_filter hmem)

theorem addUrlTags_mono (items : List (ListItem × String)) :
    ∀ (tags : List (List String)) (ty v : String), hasTag tags ty v = true →
      hasTag (addUrlTags items tags) ty v = true := by
  induction items with
  | nil => intro tags ty v h; exact h
  | cons p rest ih =>
    intro tags ty v h
    have hstep : addUrlTags (p :: rest) tags = addUrlTags rest
        (match p.1.url with
         | some u => if u ≠ "" && !hasTag tags "url" u then tags ++ [["url", u]] else tags
         | none => tags) := by
      simp only [addUrlTags, List.foldl_cons]
    rw [hstep]
    cases hu : p.1.url with
    | none => exact ih tags ty v h
    | some u =>
      by_cases hcond : (u ≠ "" && !hasTag tags "url" u) = true
      · simp only [hcond, if_true]
        exact ih _ ty v (hasTag_append_mono _ h)
      · simp only [hcond, if_false]
        exact ih tags ty v h

theorem addUrlTags_covers (items : List (ListItem × String)) :
    ∀ (tags : List (List String)) (p : ListItem × String) (u : String),
      p ∈ items → p.1.url = some u → u ≠ "" →
      hasTag (addUrlTags items tags) "url" u = true := by
  induction items with
  | nil => intro tags p u hp; cases hp
  | cons q rest ih =>
    intro tags p u hp hu hne
    have hstep : addUrlTags (q :: rest) tags = addUrlTags rest
        (match q.1.url with
         | some w => if w ≠ "" && !hasTag tags "url" w then tags ++ [["url", w]] else tags
         | none => tags) := by
      simp only [addUrlTags, List.foldl_cons]
    rw [hstep]
    rcases List.mem_cons.mp hp with h | h
    · subst h
      simp only [hu]
      by_cases hcond : (u ≠ "" && !hasTag tags "url" u) = true
      · rw [if_pos hcond]
        exact addUrlTags_mono rest _ "url" u (hasTag_append_self tags "url" u)
      · rw [if_neg hcond]
        have htag : hasTag tags "url" u = true := by
          by_contra hfalse
          have h0 : hasTag tags "url" u = false := Bool.eq_false_iff.mpr hfalse
          exact hcond (by simp [hne, h0])
        exact addUrlTags_mono rest tags "url" u htag
    · cases hq : q.1.url with
      | none => exact ih tags p u h hu hne
      | some w =>
        by_cases hcond : (w ≠ "" && !hasTag tags "url" w) = true
        · simp only [hcond, if_true]
          exact ih _ p u h hu hne
        · simp only [hcond, if_false]
          exact ih tags p u h hu hne

theorem addUrlTags_nodup (items : List (ListItem × String)) :
    ∀ (tags : List (List String)), (urlTags tags).Nodup →
      (urlTags (addUrlTags items tags)).Nodup := by
  induction items with
  | nil => intro tags h; exact h
  | cons q rest ih =>
    intro tags h
    have hstep : addUrlTags (q :: rest) tags = addUrlTags rest
        (match q.1.url with
         | some w => if w ≠ "" && !hasTag tags "url" w then tags ++ [["url", w]] else tags
         | none => tags) := by
      simp only [addUrlTags, List.foldl_cons]
    rw [hstep]
    cases hq : q.1.url with
    | none => exact ih tags h
    | some w =>
      by_cases hcond : (w ≠ "" && !hasTag tags "url" w) = true
      · simp only [hcond, if_true]
        refine ih _ ?_
        rw [urlTags_append, urlTags_single_url]
        have hnotag : hasTag tags "url" w = false := by
          have := (Bool.and_eq_true _ _).mp hcond
          simpa using this.2
        have hnotmem : ["url", w] ∉ urlTags tags :=
          not_mem_urlTags (not_mem_of_not_hasTag hnotag)
        simp [List.nodup_append, h, hnotmem]
      · simp only [hcond, if_false]
        exact ih tags h

theorem urlTags_ite_append (c : Prop) [Decidable c] (T : List (List String))
    (t : List String) (h : urlTags [t] = []) :
    urlTags (if c then T ++ [t] else T) = urlTags T := by
  split
  · rw [urlTags_append, h]
    simp
  · rfl

theorem urlTags_baseTags (select : List String → Option String) (sha : String)
    (items : List (ListItem × String)) :
    urlTags (mergeGroupBaseTags select sha items) =
      urlTags (cleanTags (selectGroupItem select items).nip94) := by
  unfold mergeGroupBaseTags
  rw [urlTags_ite_append _ _ _ (urlTags_single_not_url (by decide) _),
    urlTags_ite_append _ _ _ (urlTags_single_not_url (by decide) _)]

theorem itemTags_mergeGroup (select : List String → Option String) (sha : String)
    (items : List (ListItem × String)) :
    itemTags (mergeGroup select sha items) =
      addUrlTags items (mergeGroupBaseTags select sha items) := rfl

theorem mergeGroup_url_tags (select : List String → Option String) (sha : String)
    (items : List (ListItem × String)) (hne : items ≠ [])
    (hnd : ∀ q ∈ items, (urlTags (cleanTags q.1.nip94)).Nodup) :
    (∀ u, (∃ q ∈ items, q.1.url = some u ∧ u ≠ "") →
      hasTag (itemTags (mergeGroup select sha items)) "url" u = true) ∧
    (urlTags (itemTags (mergeGroup select sha items))).Nodup := by
  constructor
  · intro u hex
    obtain ⟨q, hq, hu, hune⟩ := hex
    rw [itemTags_mergeGroup]
    exact addUrlTags_covers items _ q u hq hu hune
  · rw [itemTags_mergeGroup]
    apply addUrlTags_nodup
    rw [urlTags_baseTags]
    obtain ⟨q, hq, hsel⟩ := List.mem_map.mp (selectGroupItem_mem select items hne)
    rw [← hsel]
    exact hnd q hq

/-! ## C6: single-peer catalog lemmas -/

theorem insertGrouped_fresh (key : String) (v : ListItem × String) :
    ∀ gs, key ∉ gs.map (·.1) → insertGrouped key v gs = gs ++ [(key, [v])] := by
  intro gs
  induction gs with
  | nil => intro _; rfl
  | cons g rest ih =>
    intro h
    obtain ⟨k, vs⟩ := g
    have hk : ¬ k = key := by
      intro hc
      exact h (by rw [hc]; exact List.mem_map_of_mem _ (List.mem_cons_self _ _))
    simp only [insertGrouped, if_neg hk, List.cons_append]
    rw [ih (fun hc => h (by
      simp only [List.map_cons, List.mem_cons]
      exact Or.inr hc))]

theorem groupInsertItems_fresh (srv : String) :
    ∀ (catalog : List ListItem) gs,
      (∀ s ∈ catalog.filterMap validSha, s ∉ gs.map (·.1)) →
      (catalog.filterMap validSha).Nodup →
      groupInsertItems srv catalog gs =
        gs ++ catalog.filterMap (fun it => (validSha it).map (fun s => (s, [(it, srv)]))) := by
  intro catalog
  induction catalog with
  | nil => intro gs _ _; simp [groupInsertItems]
  | cons it rest ih =>
    intro gs hfresh hnodup
    cases hv : validSha it with
    | none =>
      have hstep : groupInsertItems srv (it :: rest) gs = groupInsertItems srv rest gs := by
        simp only [groupInsertItems, List.foldl_cons, hv]
      rw [hstep, List.filterMap_cons, hv]
      refine ih gs ?_ ?_
      · intro s hs
        exact hfresh s (by rw [List.filterMap_cons, hv]; exact hs)
      · rw [List.filterMap_cons, hv] at hnodup
        exact hnodup
    | some s =>
      have hstep : groupInsertItems srv (it :: rest) gs =
          groupInsertItems srv rest (insertGrouped s (it, srv) gs) := by
        simp only [groupInsertItems, List.foldl_cons, hv]
      have hsin : s ∈ (it :: rest).filterMap validSha := by
        rw [List.filterMap_cons, hv]
        exact List.mem_cons_self _ _
      have hnodup2 : (s :: rest.filterMap validSha).Nodup := by
        rw [List.filterMap_cons, hv] at hnodup
        exact hnodup
      rw [hstep, insertGrouped_fresh s (it, srv) gs (hfresh s hsin)]
      rw [ih (gs ++ [(s, [(it, srv)])]) ?_ (List.Nodup.of_cons hnodup2)]
      · rw [List.filterMap_cons, hv]
        rw [List.append_assoc]
        rfl
      · intro s2 hs2
        simp only [List.map_append, List.mem_append]
        intro hc
        rcases hc with hc | hc
        · exact hfresh s2 (by rw [List.filterMap_cons, hv]; exact List.mem_cons_of_mem _ hs2) hc
        · have : s2 = s := by simpa using hc
          rw [this] at hs2
          exact (List.nodup_cons.mp hnodup2).1 hs2

theorem filterMap_all_valid (srv : String) :
    ∀ (catalog : List ListItem), (∀ it ∈ catalog, (validSha it).isSome) →
      catalog.filterMap (fun it => (validSha it).map (fun s => (s, [(it, srv)]))) =
        catalog.map (groupOfItem srv) := by
  intro catalog
  induction catalog with
  | nil => intro _; rfl
  | cons it rest ih =>
    intro hvalid
    obtain ⟨s, hs⟩ := Option.isSome_iff_exists.mp (hvalid it (List.mem_cons_self _ _))
    have hgr : groupOfItem srv it = (s, [(it, srv)]) := by
      unfold groupOfItem
      rw [hs]
      rfl
    rw [List.filterMap_cons, hs, ih (fun x hx => hvalid x (List.mem_cons_of_mem _ hx)),
      List.map_cons, hgr]
    rfl

theorem groupItems_single (p : String) (catalog : List ListItem)
    (hvalid : ∀ it ∈ catalog, (validSha it).isSome)
    (hnodup : (catalog.filterMap validSha).Nodup) :
    groupItems [⟨p, some catalog⟩] = catalog.map (groupOfItem p) := by
  unfold groupItems
  simp only [List.foldl_cons, List.foldl_nil]
  rw [groupInsertItems_fresh p catalog [] (by simp) hnodup,
    filterMap_all_valid p catalog hvalid]
  simp

theorem mergeGroup_singleton_eqMod (select : List String → Option String)
    (sha : String) (it : ListItem) (srv : String) :
    eqModNip94 (mergeGroup select sha [(it, srv)]) it :=
  ⟨rfl, rfl, rfl, rfl⟩

theorem listMerge_single_peer (select : List String → Option String)
    (p : String) (catalog : List ListItem)
    (hvalid : ∀ it ∈ catalog, (validSha it).isSome)
    (hnodup : (catalog.filterMap validSha).Nodup) :
    List.Forall₂ eqModNip94 (listMerge select [⟨p, some catalog⟩]) catalog := by
  have hlm : listMerge select [⟨p, some catalog⟩] =
      catalog.map (fun it => mergeGroup select (groupOfItem p it).1 (groupOfItem p it).2) := by
    unfold listMerge
    rw [groupItems_single p catalog hvalid hnodup, List.map_map]
    rfl
  have hall : ∀ l : List ListItem, List.Forall₂ eqModNip94
      (l.map (fun it => mergeGroup select (groupOfItem p it).1 (groupOfItem p it).2)) l := by
    intro l
    induction l with
    | nil => exact List.Forall₂.nil
    | cons it rest ih =>
      exact List.Forall₂.cons (mergeGroup_singleton_eqMod select _ it p) ih
  rw [hlm]
  exact hall catalog

/-- C6 (corrected): the merge yields exactly one item per distinct valid
digest (output digests are the group keys, which are duplicate-free and
exactly the valid digests of the input); a single peer's
duplicate-digest-free catalog is returned pointwise unchanged except for
the rebuilt `nip94`; and every digest group's merged `nip94` contains a
`url` tag for each distinct contributed url and — provided the items' own
`nip94` arrays carry no duplicate `url` tags — never two identical `url`
tags. -/
theorem listMerge_dedup_identity_urls (select : List String → Option String) :
    (∀ results : List MergeListResult,
      (listMerge select results).map (·.sha256) =
        (groupItems results).map (fun g => some g.1) ∧
      ((groupItems results).map (·.1)).Nodup ∧
      ∀ sha, sha ∈ (groupItems results).map (·.1) ↔ sha ∈ validShas results) ∧
    (∀ (p : String) (catalog : List ListItem),
      (∀ it ∈ catalog, (validSha it).isSome) →
      (catalog.filterMap validSha).Nodup →
      List.Forall₂ eqModNip94 (listMerge select [⟨p, some catalog⟩]) catalog) ∧
    (∀ (sha : String) (items : List (ListItem × String)), items ≠ [] →
      (∀ q ∈ items, (urlTags (cleanTags q.1.nip94)).Nodup) →
      (∀ u, (∃ q ∈ items, q.1.url = some u ∧ u ≠ "") →
        hasTag (itemTags (mergeGroup select sha items)) "url" u = true) ∧
      (urlTags (itemTags (mergeGroup select sha items))).Nodup) := by
  refine ⟨?_, listMerge_single_peer select, ?_⟩
  · intro results
    refine ⟨?_, groupItems_keys_nodup results, groupItems_keys_mem results⟩
    unfold listMerge
    rw [List.map_map]
    apply List.map_congr_left
    intro g hg
    obtain ⟨hne, hwf⟩ := groupItems_wf results g hg
    exact mergeGroup_sha select g.1 g.2 hne hwf
  · intro sha items hne hnd
    exact mergeGroup_url_tags select sha items hne hnd

/-- Counterexample to C6 as stated: a single item whose own `nip94` already
holds two identical `url` tags keeps both, so the merged item's `nip94`
contains two identical `url` tags. -/
theorem listMerge_duplicate_url_counterexample :
    ¬ (urlTags (itemTags
        ((listMerge (fun _ => none)
          [⟨"p1", some [⟨some "d", some "u", none,
            some [["url", "u"], ["url", "u"]], []⟩]⟩]).headD default))).Nodup := by
  decide

/-- Witness for C6 at a concrete single-peer catalog with one valid item. -/
theorem listMerge_dedup_identity_urls_witness :
    ((⟨some "d", some "u", none, none, []⟩ : ListItem) :: [] ≠ []) = True ∧
    List.Forall₂ eqModNip94
      (listMerge (fun _ => none) [⟨"p1", some [⟨some "d", some "u", none, none, []⟩]⟩])
      [⟨some "d", some "u", none, none, []⟩] :=
  ⟨eq_true (by simp),
    (listMerge_dedup_identity_urls (fun _ => none)).2.1 "p1"
      [⟨some "d", some "u", none, none, []⟩] (by decide) (by decide)⟩

end Blossom
